import Mathlib

/-!
# kone: build pipeline (pkg/build)

A shallow embedding of `pkg/build/nodebuild.go` and `pkg/build/shared.go`.

* Go strings are sequences of bytes; they are modelled as `List Char`, one
  element per byte (paths are ASCII in every example).
* The filesystem is a finite tree that records, for every path the walk can
  reach, the outcome of the system calls the code performs on it.  It is a
  consistent snapshot: it does not change while an archive is written.
* A tar writer is modelled by the sequence of members written to it (header
  plus the bytes copied after it); gzip compression is not modelled.
* Library code (`path/filepath`, `encoding/json`, `archive/tar`,
  `go-containerregistry`) is modelled by small functional definitions that
  are marked as such.
-/

namespace Kone

/-! ## Strings and `path/filepath` (Unix) -/

/-- A Go string: a sequence of bytes. -/
abbrev GoString := List Char

/-- Byte-wise lexical order of `sort.Strings`: `strLt a b` iff `a < b`. -/
def strLt : GoString → GoString → Bool
  | [], [] => false
  | [], _ :: _ => true
  | _ :: _, [] => false
  | a :: as, b :: bs =>
    if a.toNat < b.toNat then true
    else if b.toNat < a.toNat then false
    else strLt as bs

/-- The elements of a path between separators (`strings.Split(path, "/")`). -/
def splitSlash : GoString → List GoString
  | [] => [[]]
  | c :: cs =>
    if c = '/' then [] :: splitSlash cs
    else match splitSlash cs with
      | [] => [[c]]
      | e :: es => (c :: e) :: es

/-- Joins elements with the separator (`strings.Join(elem, "/")`). -/
def joinSlash : List GoString → GoString
  | [] => []
  | [e] => e
  | e :: es => e ++ '/' :: joinSlash es

/-- The element loop of `filepath.Clean`: `out` holds the elements kept so
far, newest first.  Empty and `.` elements are dropped; `..` removes the
last kept element, is dropped at the root of a rooted path, and is kept at
the start of a relative path. -/
def cleanElems (rooted : Bool) : List GoString → List GoString → List GoString
  | out, [] => out.reverse
  | out, e :: es =>
    if e = [] then cleanElems rooted out es
    else if e = ['.'] then cleanElems rooted out es
    else if e = ['.', '.'] then
      match out with
      | [] => if rooted then cleanElems rooted [] es else cleanElems rooted [e] es
      | o :: os =>
        if o = ['.', '.'] then cleanElems rooted (e :: o :: os) es
        else cleanElems rooted os es
    else cleanElems rooted (e :: out) es

/-- Library model of `filepath.Clean`: the shortest equivalent path. -/
def Clean (path : GoString) : GoString :=
  match path with
  | [] => ['.']
  | c :: _ =>
    let rooted := decide (c = '/')
    let out := joinSlash (cleanElems rooted [] (splitSlash path))
    if rooted then '/' :: out
    else if out = [] then ['.'] else out

/-- Library model of `filepath.Join`: leading empty elements are ignored, the
rest is joined with the separator and cleaned. -/
def Join : List GoString → GoString
  | [] => []
  | e :: es => if e = [] then Join es else Clean (joinSlash (e :: es))

/-- The part of `path` up to and including its last separator. -/
def dirPart : GoString → GoString
  | [] => []
  | c :: cs =>
    match dirPart cs with
    | [] => if c = '/' then [c] else []
    | d => c :: d

/-- Library model of `filepath.Dir`: all but the last element, cleaned. -/
def Dir (path : GoString) : GoString :=
  Clean (dirPart path)

/-! ## Errors -/

/-- An abnormal outcome: an `error` value returned by a system or library
call, or a run-time panic. -/
inductive Error where
  | os (msg : String)
  | panic (msg : String)
deriving DecidableEq, Repr

/-! ## `archive/tar` -/

/-- The two values of `tar.Header.Typeflag` the code uses. -/
inductive Typeflag where
  | TypeReg
  | TypeDir
deriving DecidableEq, Repr

/-- The fields of `tar.Header` the code sets; every other field keeps its
zero value. -/
structure Header where
  Name : GoString
  Size : Nat
  Typeflag : Typeflag
  Mode : Nat
deriving DecidableEq, Repr

/-- One archive member: a header and the bytes written after it. -/
structure Member where
  hdr : Header
  data : GoString
deriving DecidableEq, Repr

/-- The state of a `tar.Writer` writing to a memory buffer: the members
written so far, newest first. -/
abbrev Writer := List Member

/-- Library model of `tar.Writer.WriteHeader`: starts a new member. -/
def Writer.WriteHeader (tw : Writer) (hdr : Header) : Writer :=
  { hdr := hdr, data := [] } :: tw

/-- Library model of `tar.Writer.Write`: appends bytes to the current member. -/
def Writer.Write (tw : Writer) (b : GoString) : Writer :=
  match tw with
  | [] => []
  | m :: ms => { m with data := m.data ++ b } :: ms

/-- A finished archive: its members in the order they were written. -/
abbrev Archive := List Member

/-- Library model of `tar.Writer.Close` followed by `gzip.Writer.Close`. -/
def Writer.Close (tw : Writer) : Archive :=
  tw.reverse

/-! ## The filesystem seen by the walk -/

/-- What `os.Stat`, `os.Open` and reading observe at a path that `os.Lstat`
reports as a non-directory (symbolic links are followed). -/
inductive Target where
  | statErr (e : Error)
  | openErr (size : Nat) (e : Error)
  | readErr (size : Nat) (e : Error)
  | regular (content : GoString)
deriving DecidableEq, Repr

mutual
/-- What the walk observes at a path: `os.Lstat` fails; a directory whose
names can be read; a directory whose names cannot be read; or anything else
(a regular file, a symbolic link, ...). -/
inductive Node where
  | lstatErr (e : Error)
  | dir (names : Entries)
  | unreadableDir (e : Error)
  | nondir (t : Target)
/-- The entries of a directory, in the order the system lists them. -/
inductive Entries where
  | nil
  | cons (name : GoString) (n : Node) (rest : Entries)
end

/-- A filesystem: what is found at each root path. -/
abbrev FS := GoString → Node

/-- The `IsDir` bit of the `os.Lstat` result: `info.Mode().IsDir()`. -/
def Node.IsDir : Node → Bool
  | .dir _ => true
  | .unreadableDir _ => true
  | _ => false

/-- Model of `os.Stat(path)` on a non-directory entry: the size of the file
the path resolves to. -/
def os_Stat : Node → Except Error Nat
  | .nondir (.statErr e) => .error e
  | .nondir (.openErr size _) => .ok size
  | .nondir (.readErr size _) => .ok size
  | .nondir (.regular content) => .ok content.length
  | .lstatErr e => .error e
  | .dir _ => .ok 0
  | .unreadableDir _ => .ok 0

/-- Model of `os.Open(path)`: the open file is represented by what reading
it to the end delivers. -/
def os_Open : Node → Except Error (Except Error GoString)
  | .nondir (.statErr e) => .error e
  | .nondir (.openErr _ e) => .error e
  | .nondir (.readErr _ e) => .ok (.error e)
  | .nondir (.regular content) => .ok (.ok content)
  | .lstatErr e => .error e
  | .dir _ => .ok (.error (.os "is a directory"))
  | .unreadableDir e => .error e

/-- Model of `io.Copy(tw, file)`. -/
def io_Copy (tw : Writer) (file : Except Error GoString) : Except Error Writer :=
  match file with
  | .error e => .error e
  | .ok content => .ok (tw.Write content)

/-- Inserts an entry before the first entry with a greater name. -/
def Entries.insert (name : GoString) (n : Node) : Entries → Entries
  | .nil => .cons name n .nil
  | .cons name1 n1 rest =>
    if strLt name name1 then .cons name n (.cons name1 n1 rest)
    else .cons name1 n1 (Entries.insert name n rest)

mutual
/-- The tree with every directory listing in the order `readDirNames`
returns it (sorted by name). -/
def Node.sorted : Node → Node
  | .dir names => .dir (Entries.sorted names)
  | .lstatErr e => .lstatErr e
  | .unreadableDir e => .unreadableDir e
  | .nondir t => .nondir t
/-- Sorts a listing by name, and every listing below it. -/
def Entries.sorted : Entries → Entries
  | .nil => .nil
  | .cons name n rest => Entries.insert name (Node.sorted n) (Entries.sorted rest)
end

/-- The type of the function `filepath.Walk` calls at every path: the path,
what is found there (the `os.FileInfo`, and the file behind it), and the
error the walk met at that path, if any. -/
abbrev WalkFunc := GoString → Node → Option Error → Writer → Except Error Writer

mutual
/-- Library model of `filepath.walk`: calls `fn` on the path, then descends
into the names of a readable directory in order, stopping at the first
error. -/
def walk (fn : WalkFunc) (path : GoString) : Node → Writer → Except Error Writer
  | .lstatErr e, tw => fn path (.lstatErr e) (some e) tw
  | .nondir t, tw => fn path (.nondir t) none tw
  | .unreadableDir e, tw => fn path (.unreadableDir e) (some e) tw
  | .dir names, tw =>
    match fn path (.dir names) none tw with
    | .error e => .error e
    | .ok tw1 => walkNames fn path names tw1
/-- The loop of `filepath.walk` over the names of a directory. -/
def walkNames (fn : WalkFunc) (path : GoString) : Entries → Writer → Except Error Writer
  | .nil, tw => .ok tw
  | .cons name n rest, tw =>
    match walk fn (Join [path, name]) n tw with
    | .error e => .error e
    | .ok tw1 => walkNames fn path rest tw1
end

/-- Library model of `filepath.Walk(root, fn)`. -/
def Walk (root : GoString) (n : Node) (fn : WalkFunc) (tw : Writer) : Except Error Writer :=
  walk fn root n.sorted tw

/-! ## `nodebuild.go`: the archiver -/

def appDir : GoString := "/ko-app".toList

def defaultAppFilename : GoString := "main.js".toList

def kodataRoot : GoString := "/var/run/ko".toList

def appFilename (_path : GoString) : GoString :=
  defaultAppFilename

/-- The function `tarAddDirectories`, returning the writer after the headers
of `dir` and its ancestors are written.  `fuel` bounds the recursion on
`filepath.Dir(dir)`; `none` means the bound was reached. -/
def tarAddDirectories : Nat → Writer → GoString → Option Writer
  | 0, _, _ => none
  | fuel + 1, tw, dir =>
    if dir = ['.'] ∨ dir = ['/'] then some tw
    else
      match tarAddDirectories fuel tw (Dir dir) with
      | none => none
      | some tw1 =>
        some (tw1.WriteHeader
          { Name := dir, Typeflag := .TypeDir, Mode := 0o555, Size := 0 })

/-- The `path[len(src):]` slice expression; it panics when `path` is shorter
than `src`. -/
def sliceFrom (path : GoString) (n : Nat) : Except Error GoString :=
  if n ≤ path.length then .ok (path.drop n)
  else .error (.panic "slice bounds out of range")

/-- The function literal that `tarData` passes to `filepath.Walk`. -/
def tarDataFn (src dst : GoString) : WalkFunc := fun path info err tw =>
  if path = src then
    .ok (tw.WriteHeader { Name := dst, Typeflag := .TypeDir, Mode := 0o555, Size := 0 })
  else
    match err with
    | some e => .error e
    | none =>
      if info.IsDir then .ok tw
      else
        match os_Stat info with
        | .error e => .error e
        | .ok size =>
          match os_Open info with
          | .error e => .error e
          | .ok file =>
            match sliceFrom path src.length with
            | .error e => .error e
            | .ok rel =>
              let newPath := Join [dst, rel]
              io_Copy
                (tw.WriteHeader
                  { Name := newPath, Size := size, Typeflag := .TypeReg, Mode := 0o555 })
                file

/-- The method `gobuild.tarData`. -/
def tarData (fs : FS) (src dst : GoString) : Except Error Archive :=
  match Walk src (fs src) (tarDataFn src dst) [] with
  | .error e => .error e
  | .ok tw => .ok tw.Close

/-- The method `gobuild.tarNodeApp`. -/
def tarNodeApp (fs : FS) (name : GoString) : Except Error Archive :=
  tarData fs name appDir

/-- The method `gobuild.kodataPath`. -/
def kodataPath (s : GoString) : Except Error GoString :=
  .ok (Join [s, "kodata".toList])

/-- The method `gobuild.tarKoData`. -/
def tarKoData (fs : FS) (name : GoString) : Except Error Archive :=
  match kodataPath name with
  | .error e => .error e
  | .ok root => tarData fs root kodataRoot

/-! ## Images (`go-containerregistry`) -/

/-- A `v1.Time`; the zero value is `Time.empty`. -/
abbrev Time := Nat

/-- The zero value `v1.Time{}`. -/
def Time.empty : Time := 0

/-- The type `v1.History`. -/
structure History where
  Author : GoString
  CreatedBy : GoString
  Created : Time
deriving DecidableEq, Repr

/-- A layer, identified with the archive it was made from. -/
structure Layer where
  archive : Archive
deriving DecidableEq, Repr

/-- The type `mutate.Addendum`. -/
structure Addendum where
  Layer : Layer
  History : History
deriving DecidableEq, Repr

/-- The type `v1.Config`: the three fields the build rewrites, and all its
other fields together as `rest`. -/
structure Config (ρ : Type) where
  Entrypoint : List GoString
  WorkingDir : GoString
  Env : List GoString
  rest : ρ

/-- The type `v1.ConfigFile`: the fields the build and `mutate` touch, and
all its other fields together as `rest`. -/
structure ConfigFile (ρ : Type) where
  Author : GoString
  Created : Time
  Config : Kone.Config ρ
  ContainerConfig : Kone.Config ρ
  History : List History
  rest : ρ

/-- A `v1.Image`: its layers, bottom first, and what `ConfigFile()` returns. -/
structure Image (ρ : Type) where
  layers : List Layer
  configFile : Except Error (ConfigFile ρ)

/-- Library model of `tarball.LayerFromOpener` on a memory buffer. -/
def LayerFromOpener (buf : Archive) : Except Error Layer :=
  .ok { archive := buf }

/-- Library model of `mutate.Append`: the added layers go on top of the base
layers and their history records after the base history. -/
def mutate_Append {ρ : Type} (base : Image ρ) (adds : List Addendum) : Except Error (Image ρ) :=
  .ok
    { layers := base.layers ++ adds.map (fun a => a.Layer)
      configFile :=
        match base.configFile with
        | .error e => .error e
        | .ok cf => .ok { cf with History := cf.History ++ adds.map (fun a => a.History) } }

/-- Library model of `mutate.ConfigFile`: the image with its configuration
replaced. -/
def mutate_ConfigFile {ρ : Type} (base : Image ρ) (cfg : ConfigFile ρ) : Except Error (Image ρ) :=
  .ok { layers := base.layers, configFile := .ok cfg }

/-- Library model of `mutate.CreatedAt`: the image with its creation time
replaced. -/
def mutate_CreatedAt {ρ : Type} (base : Image ρ) (created : Time) : Except Error (Image ρ) :=
  match base.configFile with
  | .error e => .error e
  | .ok cf => mutate_ConfigFile base { cf with Created := created }

/-! ## `nodebuild.go`: the image assembler -/

/-- The type `gobuild` (its `build` field is not used by `Build`). -/
structure gobuild (ρ : Type) where
  getBase : GoString → Except Error (Image ρ)
  creationTime : Time

/-- The method `gobuild.Build`; `now` is what `time.Now()` returns. -/
def gobuild.Build {ρ : Type} (gb : gobuild ρ) (fs : FS) (now : Time) (basedir s : GoString) :
    Except Error (Image ρ) :=
  let appPath := Join [appDir, appFilename s]
  match tarNodeApp fs (Join [basedir, s]) with
  | .error e => .error e
  | .ok nodeappLayerBuf =>
    match LayerFromOpener nodeappLayerBuf with
    | .error e => .error e
    | .ok nodeappLayer =>
      let layers : List Addendum :=
        [] ++ [{ Layer := nodeappLayer
                 History :=
                   { Author := "kone".toList
                     CreatedBy := "kone publish ".toList ++ s
                     Created := now } }]
      match gb.getBase s with
      | .error e => .error e
      | .ok base =>
        match mutate_Append base layers with
        | .error e => .error e
        | .ok withApp =>
          match withApp.configFile with
          | .error e => .error e
          | .ok cfg0 =>
            let cfg1 := { cfg0 with
              Config := { cfg0.Config with
                Entrypoint := ["node".toList, appPath]
                WorkingDir := appDir
                Env := cfg0.Config.Env ++ ["KONE_DATA_PATH=".toList ++ kodataRoot] } }
            let cfg2 := { cfg1 with ContainerConfig := cfg1.Config }
            let cfg := { cfg2 with Author := "github.com/ibm/kone".toList }
            match mutate_ConfigFile withApp cfg with
            | .error e => .error e
            | .ok image =>
              if gb.creationTime ≠ Time.empty then mutate_CreatedAt image gb.creationTime
              else .ok image

/-! ## `nodebuild.go`: manifest classification -/

/-- A JSON value as `encoding/json` parses it. -/
inductive Json where
  | null
  | bool (b : Bool)
  | num (n : Int)
  | str (s : GoString)
  | arr (xs : List Json)
  | obj (members : List (GoString × Json))

/-- The type `Package`: `Name string` with the key `name`. -/
structure Package where
  Name : GoString
deriving DecidableEq, Repr

/-- ASCII lower case of a key, for the case-insensitive key match of
`encoding/json`. -/
def foldKey (key : GoString) : GoString :=
  key.map Char.toLower

/-- Library model of decoding the members of a JSON object into a `Package`:
every member whose key matches `name` is decoded into `Name` in turn (a
string sets it, `null` leaves it, anything else is a type error); other
members are ignored.  The first error is remembered and decoding goes on. -/
def decodeMembers : List (GoString × Json) → Package → Option Error → Package × Option Error
  | [], pkg, err => (pkg, err)
  | (key, v) :: rest, pkg, err =>
    if foldKey key = "name".toList then
      match v with
      | .str s => decodeMembers rest { pkg with Name := s } err
      | .null => decodeMembers rest pkg err
      | _ =>
        decodeMembers rest pkg
          (match err with
           | some e => some e
           | none => some (.os "json: cannot unmarshal into Go struct field Package.name"))
    else decodeMembers rest pkg err

/-- Library model of decoding a JSON value into a `Package`. -/
def decodePackage (v : Json) (pkg : Package) : Except Error Package :=
  match v with
  | .null => .ok pkg
  | .obj members =>
    match decodeMembers members pkg none with
    | (pkg1, none) => .ok pkg1
    | (_, some e) => .error e
  | _ => .error (.os "json: cannot unmarshal into Go value of type build.Package")

/-- Library model of `json.Unmarshal(raw, &pkg)`: `parse` is the syntax
check and parser of `encoding/json`, `none` for invalid JSON text. -/
def json_Unmarshal (parse : GoString → Option Json) (raw : GoString) (pkg : Package) :
    Except Error Package :=
  match parse raw with
  | none => .error (.os "json: syntax error")
  | some v => decodePackage v pkg

/-- Library model of `ioutil.ReadFile`. -/
def ioutil_ReadFile (fs : FS) (path : GoString) : Except Error GoString :=
  match fs path with
  | .lstatErr e => .error e
  | .dir _ => .error (.os "is a directory")
  | .unreadableDir _ => .error (.os "is a directory")
  | .nondir (.statErr e) => .error e
  | .nondir (.openErr _ e) => .error e
  | .nondir (.readErr _ e) => .error e
  | .nondir (.regular content) => .ok content

/-- The method `gobuild.IsSupportedReference`; `none` is the nil pointer. -/
def gobuild.IsSupportedReference (fs : FS) (parse : GoString → Option Json)
    (base s : GoString) : Option GoString :=
  let appPath := Join [base, s, "package.json".toList]
  match ioutil_ReadFile fs appPath with
  | .error _ => none
  | .ok raw =>
    let pkg : Package := { Name := [] }
    match json_Unmarshal parse raw pkg with
    | .error _ => none
    | .ok pkg1 => if pkg1.Name = [] then none else some pkg1.Name

/-! ## `shared.go`: the caching builder -/

/-- The type `Interface`: a builder.  A builder may read and change the world
outside it (type `σ`); `ι` is the type of images. -/
structure Interface (σ ι : Type) where
  Build : GoString → GoString → σ → Except Error ι × σ
  IsSupportedReference : GoString → GoString → σ → Option GoString

/-- The world a caching builder runs in: the state the inner builder works
on, and a log with one record for every invocation of the inner `Build`. -/
structure World (σ : Type) where
  state : σ
  calls : List (GoString × GoString)

/-- One invocation of `inner.Build(base, dir)`, recorded in the log. -/
def Interface.invoke {σ ι : Type} (inner : Interface σ ι) (base dir : GoString)
    (w : World σ) : Except Error ι × World σ :=
  ((inner.Build base dir w.state).1,
    { state := (inner.Build base dir w.state).2, calls := w.calls ++ [(base, dir)] })

/-- Modelled from the spec: the states of a `future` (its source file is
not among the sources), a single-assignment cell: created empty; its
producer running; completed with the result of the producer. -/
inductive Status (ι : Type) where
  | empty
  | running
  | done (r : Except Error ι)

/-- Modelled from the spec: the type `future` (its source file is not among
the sources).  A single-assignment cell bound to a zero-argument producer
function `work`. -/
structure future (σ ι : Type) where
  work : World σ → Except Error ι × World σ
  status : Status ι

/-- Modelled from the spec: the function `newFuture`.  The future is created
empty, bound to its producer. -/
def newFuture {σ ι : Type} (work : World σ → Except Error ι × World σ) : future σ ι :=
  { work := work, status := .empty }

/-- Modelled from the spec: the method `future.Get` called by the only
running caller.  The first request runs the producer once and keeps its
result, value or error; every later request returns the kept result.  A
caller that waits for a producer nobody is running waits forever. -/
def future.Get {σ ι : Type} (f : future σ ι) (w : World σ) :
    Except Error ι × future σ ι × World σ :=
  match f.status with
  | .done r => (r, f, w)
  | .empty => ((f.work w).1, { f with status := .done (f.work w).1 }, (f.work w).2)
  | .running => (.error (.panic "all goroutines are asleep - deadlock!"), f, w)

/-- The type `Caching`.  The map `results` holds pointers to futures: a
future lives in `heap` and the map holds its address. -/
structure Caching (σ ι : Type) where
  inner : Interface σ ι
  results : List (GoString × Nat)
  heap : List (future σ ι)

/-- The function `NewCaching`. -/
def NewCaching {σ ι : Type} (inner : Interface σ ι) : Caching σ ι :=
  { inner := inner, results := [], heap := [] }

/-- The function literal at the start of `Caching.Build`, run with the map
locked: the address of the future recorded for the key, after recording a
new one if there was none. -/
def Caching.getFuture {σ ι : Type} (c : Caching σ ι) (base dir : GoString) :
    Nat × Caching σ ι :=
  let key := Join [base, dir]
  match c.results.lookup key with
  | some f => (f, c)
  | none =>
    let f := c.heap.length
    (f, { c with
          heap := c.heap ++ [newFuture (c.inner.invoke base dir)]
          results := (key, f) :: c.results })

/-- The call `f.Get()` on the future at address `f`. -/
def Caching.Get {σ ι : Type} (c : Caching σ ι) (f : Nat) (w : World σ) :
    Except Error ι × Caching σ ι × World σ :=
  match c.heap.get? f with
  | none => (.error (.panic "nil pointer dereference"), c, w)
  | some fut =>
    ((fut.Get w).1, { c with heap := c.heap.set f (fut.Get w).2.1 }, (fut.Get w).2.2)

/-- The method `Caching.Build`, called by a single caller. -/
def Caching.Build {σ ι : Type} (c : Caching σ ι) (w : World σ) (base dir : GoString) :
    Except Error ι × Caching σ ι × World σ :=
  (c.getFuture base dir).2.Get (c.getFuture base dir).1 w

/-- The method `Caching.IsSupportedReference`. -/
def Caching.IsSupportedReference {σ ι : Type} (c : Caching σ ι) (w : World σ)
    (base dir : GoString) : Option GoString :=
  c.inner.IsSupportedReference base dir w.state

/-- The method `Caching.Invalidate`. -/
def Caching.Invalidate {σ ι : Type} (c : Caching σ ι) (base dir : GoString) : Caching σ ι :=
  let key := Join [base, dir]
  { c with results := c.results.filter (fun kv => kv.1 ≠ key) }

/-- The results of `n` calls of `Build(base, dir)` one after the other, with
the cache and the world after the last call. -/
def Caching.BuildTimes {σ ι : Type} (base dir : GoString) :
    Nat → Caching σ ι → World σ → List (Except Error ι) × Caching σ ι × World σ
  | 0, c, w => ([], c, w)
  | n + 1, c, w =>
    ((c.Build w base dir).1 ::
        (Caching.BuildTimes base dir n (c.Build w base dir).2.1 (c.Build w base dir).2.2).1,
      (Caching.BuildTimes base dir n (c.Build w base dir).2.1 (c.Build w base dir).2.2).2)

/-! ## `shared.go`: concurrent callers -/

/-- Where a caller of `Caching.Build` stands: it has called `Build(base,
dir)` and not yet taken the lock; it holds the future at address `f` and
is in `f.Get()`; it is running the producer of the future at `f`; it has
returned `r`. -/
inductive Caller (ι : Type) where
  | called (base dir : GoString)
  | waiting (f : Nat)
  | producing (f : Nat)
  | returned (r : Except Error ι)

/-- A cache shared by concurrent callers, and the world they run in. -/
structure System (σ ι : Type) where
  cache : Caching σ ι
  world : World σ
  callers : List (Caller ι)

/-- Modelled from the spec: one atomic step of caller `i`, `none` when the
caller cannot move.  A caller that has called `Build` runs the function
literal under the lock and gets its future.  In `f.Get()`: the first
caller to request the value of an empty future starts its producer; a
caller blocks while the producer runs; a caller returns the result of a
completed future.  The producer runs once to its end, completes the
future with its result, and its caller returns that result. -/
def System.step {σ ι : Type} (s : System σ ι) (i : Nat) : Option (System σ ι) :=
  match s.callers.get? i with
  | none => none
  | some (.called base dir) =>
    some { s with
      cache := (s.cache.getFuture base dir).2
      callers := s.callers.set i (.waiting (s.cache.getFuture base dir).1) }
  | some (.waiting f) =>
    match s.cache.heap.get? f with
    | none => none
    | some fut =>
      match fut.status with
      | .empty =>
        some { s with
          cache := { s.cache with heap := s.cache.heap.set f { fut with status := .running } }
          callers := s.callers.set i (.producing f) }
      | .running => none
      | .done r => some { s with callers := s.callers.set i (.returned r) }
  | some (.producing f) =>
    match s.cache.heap.get? f with
    | none => none
    | some fut =>
      some
        { cache := { s.cache with
            heap := s.cache.heap.set f { fut with status := .done (fut.work s.world).1 } }
          world := (fut.work s.world).2
          callers := s.callers.set i (.returned (fut.work s.world).1) }
  | some (.returned _) => none

/-- An interleaving: the callers named by the schedule step one after the
other; `none` when a step names a caller that cannot move. -/
def System.run {σ ι : Type} (s : System σ ι) : List Nat → Option (System σ ι)
  | [] => some s
  | i :: rest =>
    match s.step i with
    | none => none
    | some s1 => s1.run rest

/-- The start: a new cache, and one caller for every `(base, dir)` of the
list, each about to call `Build(base, dir)`. -/
def System.init {σ ι : Type} (inner : Interface σ ι) (w : World σ)
    (calls : List (GoString × GoString)) : System σ ι :=
  { cache := NewCaching inner
    world := w
    callers := calls.map (fun bd => .called bd.1 bd.2) }

/-- The caller has returned. -/
def Caller.isReturned {ι : Type} : Caller ι → Bool
  | .returned _ => true
  | _ => false

/-! ## Cleaned paths -/

/-- A name a directory can hold: not empty, not `.` or `..`, no separator. -/
def validName (name : GoString) : Bool :=
  decide (name ≠ []) && decide (name ≠ ['.']) && decide (name ≠ ['.', '.']) &&
    decide ('/' ∉ name)

/-- The elements `filepath.Clean` keeps of a path. -/
def pathElems (path : GoString) : List GoString :=
  cleanElems (decide (path.head? = some '/')) [] (splitSlash path)

/-- The number of elements of the cleaned path. -/
def depth (path : GoString) : Nat :=
  (pathElems path).length

/-- The kept elements, newest first, are in clean order: no element is empty,
is `.` or holds a separator, and below a `..` there are only `..`, none of
them in a rooted path. -/
def StackOK (rooted : Bool) : List GoString → Prop
  | [] => True
  | o :: os =>
    (o ≠ [] ∧ o ≠ ['.'] ∧ '/' ∉ o) ∧
      (if o = ['.', '.'] then rooted = false ∧ ∀ x ∈ os, x = ['.', '.'] else StackOK rooted os)

/-- The path string of a list of kept elements. -/
def render (rooted : Bool) (l : List GoString) : GoString :=
  if rooted then '/' :: joinSlash l
  else if joinSlash l = [] then ['.'] else joinSlash l

/-- The length of the joined elements, counting one separator after each. -/
def elemsSize (l : List GoString) : Nat :=
  (l.map (fun e => e.length + 1)).sum

/-! ## What the archiver writes -/

/-- The directory header `tarData` writes for the destination root. -/
def dstHeader (dst : GoString) : Header :=
  { Name := dst, Typeflag := .TypeDir, Mode := 0o555, Size := 0 }

/-- A member `tarData` can write: the empty member of the destination root,
or a regular-file member with the fixed mode. -/
def Written (dst : GoString) (m : Member) : Prop :=
  m = { hdr := dstHeader dst, data := [] } ∨
    (m.hdr.Typeflag = .TypeReg ∧ m.hdr.Mode = 0o555)

/-! ## Well-formed trees and failing operations -/

mutual
/-- Every name in the tree is one a directory can hold. -/
def Node.valid : Node → Bool
  | .dir names => Entries.valid names
  | .lstatErr _ => true
  | .unreadableDir _ => true
  | .nondir _ => true
/-- Every name in the listing, and below it, is one a directory can hold. -/
def Entries.valid : Entries → Bool
  | .nil => true
  | .cons name n rest => validName name && Node.valid n && Entries.valid rest
end

mutual
/-- Some filesystem operation the walk performs at this entry or below it
fails: `Lstat`, reading a directory, `Stat`, `Open`, or reading a file. -/
def Node.fails : Node → Bool
  | .dir names => Entries.fails names
  | .lstatErr _ => true
  | .unreadableDir _ => true
  | .nondir (.regular _) => false
  | .nondir (.statErr _) => true
  | .nondir (.openErr _ _) => true
  | .nondir (.readErr _ _) => true
/-- Some filesystem operation fails at an entry of the listing or below. -/
def Entries.fails : Entries → Bool
  | .nil => false
  | .cons _ n rest => Node.fails n || Entries.fails rest
end

/-! ## Example filesystems -/

/-- A source tree `/src/app` holding `a/b/c/file.txt` and `b.js`; nothing
else exists. -/
def treeFS : FS := fun p =>
  if p = "/src/app".toList then
    .dir (.cons "b.js".toList (.nondir (.regular "x".toList))
      (.cons "a".toList
        (.dir (.cons "b".toList
          (.dir (.cons "c".toList
            (.dir (.cons "file.txt".toList (.nondir (.regular "hi".toList)) .nil)) .nil))
          .nil)) .nil))
  else .lstatErr (.os "no such file or directory")

/-- The current directory `.` holding `main.js`; nothing else exists. -/
def dotFS : FS := fun p =>
  if p = ".".toList then
    .dir (.cons "main.js".toList (.nondir (.regular "x".toList)) .nil)
  else .lstatErr (.os "no such file or directory")

/-- A source tree `/src/app` holding `main.js` and a dangling symbolic link
`lib/link`. -/
def brokenFS : FS := fun p =>
  if p = "/src/app".toList then
    .dir (.cons "main.js".toList (.nondir (.regular "x".toList))
      (.cons "lib".toList
        (.dir (.cons "link".toList
          (.nondir (.statErr (.os "no such file or directory"))) .nil)) .nil))
  else .lstatErr (.os "no such file or directory")

/-- The member `tarData` writes for the destination root. -/
def dstMember (dst : GoString) : Member :=
  { hdr := dstHeader dst, data := [] }

/-- A regular-file member with the fixed mode, holding `content`. -/
def fileMember (name content : GoString) : Member :=
  { hdr := { Name := name, Size := content.length, Typeflag := .TypeReg, Mode := 0o555 }
    data := content }

/-! ## Example images -/

/-- An application directory `/src/app` holding `main.js`, `package.json`
and the static data file `kodata/data.txt`. -/
def appFS : FS := fun p =>
  if p = "/src/app".toList then
    .dir (.cons "main.js".toList (.nondir (.regular "x".toList))
      (.cons "package.json".toList (.nondir (.regular "\x7b\"name\": \"foo\"\x7d".toList))
        (.cons "kodata".toList
          (.dir (.cons "data.txt".toList (.nondir (.regular "d".toList)) .nil)) .nil)))
  else if p = "/src/app/kodata".toList then
    .dir (.cons "data.txt".toList (.nondir (.regular "d".toList)) .nil)
  else if p = "/src/app/package.json".toList then
    .nondir (.regular "\x7b\"name\": \"foo\"\x7d".toList)
  else .lstatErr (.os "no such file or directory")

/-- A base image with one layer and a configuration with one environment
variable. -/
def exampleBase : Image Unit :=
  { layers := [{ archive := [dstMember "/usr".toList] }]
    configFile := .ok
      { Author := "base".toList
        Created := 7
        Config :=
          { Entrypoint := ["sh".toList], WorkingDir := "/".toList
            Env := ["PATH=/usr/bin".toList], rest := () }
        ContainerConfig :=
          { Entrypoint := ["sh".toList], WorkingDir := "/".toList
            Env := ["PATH=/usr/bin".toList], rest := () }
        History := []
        rest := () } }

/-- A builder whose base image is always `exampleBase`, without a fixed
creation time. -/
def exampleBuilder : gobuild Unit :=
  { getBase := fun _ => .ok exampleBase, creationTime := Time.empty }

/-- Manifests under `/src`: `num/package.json` gives a number as name,
`upper/package.json` spells the key in upper case, `null/package.json` is
the value `null`. -/
def manifestFS : FS := fun p =>
  if p = "/src/num/package.json".toList then
    .nondir (.regular "\x7b\"name\": 5\x7d".toList)
  else if p = "/src/upper/package.json".toList then
    .nondir (.regular "\x7b\"NAME\": \"Foo\"\x7d".toList)
  else if p = "/src/null/package.json".toList then
    .nondir (.regular "null".toList)
  else .lstatErr (.os "no such file or directory")

/-- A parser that knows four manifest texts and takes any other text for
invalid. -/
def exampleParse : GoString → Option Json := fun raw =>
  if raw = "\x7b\"name\": \"foo\"\x7d".toList then
    some (.obj [("name".toList, .str "foo".toList)])
  else if raw = "\x7b\"name\": 5\x7d".toList then
    some (.obj [("name".toList, .num 5)])
  else if raw = "\x7b\"NAME\": \"Foo\"\x7d".toList then
    some (.obj [("NAME".toList, .str "Foo".toList)])
  else if raw = "null".toList then some .null
  else none

/-- The key of a member names the field `name`: the four bytes `n`, `a`,
`m`, `e`, each in lower or upper case. -/
def isNameKey : GoString → Bool
  | [c1, c2, c3, c4] =>
    decide ((c1 = 'n' ∨ c1 = 'N') ∧ (c2 = 'a' ∨ c2 = 'A') ∧ (c3 = 'm' ∨ c3 = 'M') ∧
      (c4 = 'e' ∨ c4 = 'E'))
  | _ => false

/-- The value is a JSON string or `null`. -/
def Json.isStringOrNull : Json → Bool
  | .str _ => true
  | .null => true
  | _ => false

/-- The text of a JSON string, `none` for any other value. -/
def Json.string? : Json → Option GoString
  | .str s => some s
  | _ => none

/-- The values of the members of an object that name the field `name`, in
the order of the text. -/
def nameMembers (members : List (GoString × Json)) : List Json :=
  (members.filter (fun kv => isNameKey kv.1)).map (fun kv => kv.2)

/-- The name a manifest gives, in the words of the amended claim: the value
is an object, every member that names `name` is a string or `null`, and the
last of these strings is the name, provided it is not empty. -/
def manifestName : Json → Option GoString
  | .obj members =>
    if (nameMembers members).all Json.isStringOrNull then
      match ((nameMembers members).filterMap Json.string?).getLast? with
      | some name => if name = [] then none else some name
      | none => none
    else none
  | _ => none

/-! ## The cache of one caller -/

/-- The cache holds for `key` a future completed with `r`. -/
def Caching.Hit {σ ι : Type} (c : Caching σ ι) (key : GoString) (r : Except Error ι) : Prop :=
  ∃ f fut, c.results.lookup key = some f ∧ c.heap.get? f = some fut ∧ fut.status = .done r

/-- A counting stub: the `k`-th invocation of its `Build` (counted from 0)
fails for `missing-dir` and returns the image `k` otherwise. -/
def countingStub : Interface Nat Nat :=
  { Build := fun _ dir k =>
      (if dir = "missing-dir".toList then .error (.os "no such file or directory") else .ok k,
        k + 1)
    IsSupportedReference := fun _ _ _ => none }

/-! ## The invariant of concurrent callers -/

/-- The sum of `f` over a list. -/
def total {α : Type} (f : α → Nat) (l : List α) : Nat :=
  (l.map f).sum

/-- 1 for a caller that is running a producer. -/
def Caller.producingCount {ι : Type} : Caller ι → Nat
  | .producing _ => 1
  | _ => 0

/-- The number of steps a caller has left at most. -/
def Caller.weight {ι : Type} : Caller ι → Nat
  | .called _ _ => 3
  | .waiting _ => 2
  | .producing _ => 1
  | .returned _ => 0

/-- What holds of the callers and the world for each status of the one
future: nobody runs the producer of an empty or completed future and exactly
one caller runs that of a running future; the inner `Build` has run only when
the future is completed, and whoever has returned has returned its result. -/
def StatusInv {σ ι : Type} (inner : Interface σ ι) (w : World σ) (b d : GoString)
    (s : System σ ι) : Status ι → Prop
  | .empty => s.world = w ∧ total Caller.producingCount s.callers = 0 ∧
      ∀ r, Caller.returned r ∉ s.callers
  | .running => s.world = w ∧ total Caller.producingCount s.callers = 1 ∧
      ∀ r, Caller.returned r ∉ s.callers
  | .done r => r = (inner.Build b d w.state).1 ∧ s.world = (inner.invoke b d w).2 ∧
      total Caller.producingCount s.callers = 0 ∧
      ∀ r1, Caller.returned r1 ∈ s.callers → r1 = r

/-- The invariant of the interleavings of callers with the one key `K`:
either nobody has taken the lock yet, or the cache holds one future, for
`K`, bound to the inner `Build` of one of the calls. -/
def Inv {σ ι : Type} (inner : Interface σ ι) (w : World σ) (K : GoString)
    (P : List (GoString × GoString)) (s : System σ ι) : Prop :=
  s.cache.inner = inner ∧ s.callers.length = P.length ∧
  (∀ b d, Caller.called b d ∈ s.callers → (b, d) ∈ P) ∧
  ((s.cache.results = [] ∧ s.cache.heap = [] ∧ s.world = w ∧
      ∀ c ∈ s.callers, ∃ b d, c = Caller.called b d) ∨
    (∃ b d st, (b, d) ∈ P ∧ s.cache.results = [(K, 0)] ∧
      s.cache.heap = [{ work := inner.invoke b d, status := st }] ∧
      (∀ f, Caller.waiting f ∈ s.callers → f = 0) ∧
      (∀ f, Caller.producing f ∈ s.callers → f = 0) ∧
      StatusInv inner w b d s st))

/-! ## Theorems: the path functions -/

theorem splitSlash_ne_nil (p : GoString) : splitSlash p ≠ [] := by
  induction p with
  | nil => simp [splitSlash]
  | cons c cs ih =>
    unfold splitSlash
    split_ifs
    · simp
    · cases h : splitSlash cs with
      | nil => exact absurd h ih
      | cons e es => simp

theorem splitSlash_cons_slash (cs : GoString) :
    splitSlash ('/' :: cs) = [] :: splitSlash cs := by
  simp [splitSlash]

theorem splitSlash_cons_other (c : Char) (cs e : GoString) (es : List GoString)
    (hc : c ≠ '/') (h : splitSlash cs = e :: es) :
    splitSlash (c :: cs) = (c :: e) :: es := by
  simp [splitSlash, hc, h]

theorem joinSlash_cons_cons (e e1 : GoString) (es : List GoString) :
    joinSlash (e :: e1 :: es) = e ++ '/' :: joinSlash (e1 :: es) := rfl

theorem splitSlash_append (p q : GoString) :
    splitSlash (p ++ '/' :: q) = splitSlash p ++ splitSlash q := by
  induction p with
  | nil => simp [splitSlash_cons_slash, splitSlash]
  | cons c cs ih =>
    simp only [List.cons_append]
    by_cases hc : c = '/'
    · subst hc
      rw [splitSlash_cons_slash, splitSlash_cons_slash, ih]
      simp
    · cases h : splitSlash cs with
      | nil => exact absurd h (splitSlash_ne_nil cs)
      | cons e es =>
        rw [splitSlash_cons_other c cs e es hc h,
          splitSlash_cons_other c (cs ++ '/' :: q) e (es ++ splitSlash q) hc (by rw [ih, h]; simp)]
        simp

theorem splitSlash_noSlash (e : GoString) (h : '/' ∉ e) : splitSlash e = [e] := by
  induction e with
  | nil => simp [splitSlash]
  | cons c cs ih =>
    have hc : c ≠ '/' := fun hc => h (by simp [hc])
    have hcs : '/' ∉ cs := fun hcs => h (by simp [hcs])
    unfold splitSlash
    simp [hc, ih hcs]

theorem splitSlash_mem_noSlash (p : GoString) : ∀ e ∈ splitSlash p, '/' ∉ e := by
  induction p with
  | nil => simp [splitSlash]
  | cons c cs ih =>
    unfold splitSlash
    by_cases hc : c = '/'
    · simp only [hc, if_true]
      intro e he
      rcases List.mem_cons.1 he with rfl | he
      · simp
      · exact ih e he
    · simp only [hc, if_false]
      cases h : splitSlash cs with
      | nil => exact absurd h (splitSlash_ne_nil cs)
      | cons e0 es =>
        rw [h] at ih
        intro e he
        rcases List.mem_cons.1 he with rfl | he
        · intro hmem
          rcases List.mem_cons.1 hmem with h1 | h1
          · exact hc h1.symm
          · exact ih e0 (by simp) h1
        · exact ih e (by simp [he])

theorem splitSlash_joinSlash (l : List GoString) (hl : l ≠ []) (h : ∀ e ∈ l, '/' ∉ e) :
    splitSlash (joinSlash l) = l := by
  induction l with
  | nil => exact absurd rfl hl
  | cons e es ih =>
    cases es with
    | nil => simpa [joinSlash] using splitSlash_noSlash e (h e (by simp))
    | cons e1 es1 =>
      rw [joinSlash_cons_cons, splitSlash_append, splitSlash_noSlash e (h e (by simp)),
        ih (by simp) (fun x hx => h x (by simp [hx]))]
      simp

theorem joinSlash_append_singleton (l : List GoString) (hl : l ≠ []) (name : GoString) :
    joinSlash (l ++ [name]) = joinSlash l ++ '/' :: name := by
  induction l with
  | nil => exact absurd rfl hl
  | cons e es ih =>
    cases es with
    | nil => simp [joinSlash]
    | cons e1 es1 =>
      have := ih (by simp)
      simp only [List.cons_append] at this ⊢
      rw [joinSlash_cons_cons, this, joinSlash_cons_cons]
      simp

theorem cleanElems_append_name (rooted : Bool) (name : GoString) (hn : validName name = true)
    (xs out : List GoString) :
    cleanElems rooted out (xs ++ [name]) = cleanElems rooted out xs ++ [name] := by
  simp only [validName, Bool.and_eq_true, decide_eq_true_eq] at hn
  obtain ⟨⟨⟨h1, h2⟩, h3⟩, _⟩ := hn
  induction xs generalizing out with
  | nil => simp [cleanElems, h1, h2, h3]
  | cons e es ih =>
    simp only [List.cons_append]
    unfold cleanElems
    by_cases he1 : e = []
    · simp [he1, ih]
    · by_cases he2 : e = ['.']
      · simp [he2, ih]
      · by_cases he3 : e = ['.', '.']
        · simp only [he3]
          cases out with
          | nil => cases rooted <;> simp [ih]
          | cons o os =>
            by_cases ho : o = ['.', '.'] <;> simp [ho, ih]
        · simp [he1, he2, he3, ih]

theorem StackOK_suffix (rooted : Bool) (a b : List GoString) (h : StackOK rooted (a ++ b)) :
    StackOK rooted b := by
  induction a with
  | nil => simpa using h
  | cons o os ih =>
    simp only [List.cons_append, StackOK] at h
    by_cases ho : o = ['.', '.']
    · rw [if_pos ho] at h
      obtain ⟨_, hr, hall⟩ := h
      clear ih
      have hb : ∀ x ∈ b, x = ['.', '.'] := fun x hx => hall x (by simp [hx])
      clear hall
      induction b with
      | nil => trivial
      | cons y ys ihb =>
        have hy : y = ['.', '.'] := hb y (by simp)
        simp only [StackOK]
        refine ⟨by simp [hy], ?_⟩
        rw [if_pos hy]
        exact ⟨hr, fun x hx => hb x (by simp [hx])⟩
    · rw [if_neg ho] at h
      exact ih h.2

theorem cleanElems_of_StackOK (rooted : Bool) (ys acc : List GoString)
    (h : StackOK rooted (ys.reverse ++ acc)) :
    cleanElems rooted acc ys = acc.reverse ++ ys := by
  induction ys generalizing acc with
  | nil => simp [cleanElems]
  | cons y ys ih =>
    have h1 : StackOK rooted (ys.reverse ++ (y :: acc)) := by simpa using h
    have h2 : StackOK rooted (y :: acc) := StackOK_suffix _ _ _ h1
    have h3 := ih (y :: acc) h1
    simp only [StackOK] at h2
    obtain ⟨⟨hy1, hy2, _⟩, hy⟩ := h2
    unfold cleanElems
    by_cases hd : y = ['.', '.']
    · rw [if_pos hd] at hy
      obtain ⟨hr, hall⟩ := hy
      subst hd
      cases acc with
      | nil => simpa [hr] using h3
      | cons o os =>
        have ho : o = ['.', '.'] := hall o (by simp)
        simpa [ho] using h3
    · simpa [hy1, hy2, hd] using h3

theorem cleanElems_StackOK (rooted : Bool) (xs out : List GoString)
    (hx : ∀ e ∈ xs, '/' ∉ e) (h : StackOK rooted out) :
    ∃ out1, cleanElems rooted out xs = out1.reverse ∧ StackOK rooted out1 := by
  induction xs generalizing out with
  | nil => exact ⟨out, by simp [cleanElems], h⟩
  | cons e es ih =>
    have hes : ∀ x ∈ es, '/' ∉ x := fun x hx1 => hx x (by simp [hx1])
    unfold cleanElems
    by_cases he1 : e = []
    · simpa [he1] using ih out hes h
    · by_cases he2 : e = ['.']
      · simpa [he2] using ih out hes h
      · by_cases he3 : e = ['.', '.']
        · simp only [he3]
          cases out with
          | nil =>
            cases rooted with
            | true => simpa using ih [] hes trivial
            | false =>
              simpa using ih [['.', '.']] hes (by simp [StackOK])
          | cons o os =>
            simp only [StackOK] at h
            by_cases ho : o = ['.', '.']
            · rw [if_pos ho] at h
              have : StackOK rooted (['.', '.'] :: o :: os) := by
                simp only [StackOK]
                refine ⟨by simp, ?_⟩
                simp only [if_true]
                refine ⟨h.2.1, ?_⟩
                intro x hx1
                rcases List.mem_cons.1 hx1 with rfl | hx1
                · exact ho
                · exact h.2.2 x hx1
              simpa [ho] using ih _ hes (by simpa [ho] using this)
            · rw [if_neg ho] at h
              simpa [ho] using ih os hes h.2
        · have : StackOK rooted (e :: out) := by
            simp only [StackOK]
            refine ⟨⟨he1, he2, hx e (by simp)⟩, ?_⟩
            rw [if_neg he3]
            exact h
          simpa [he1, he2, he3] using ih (e :: out) hes this

theorem Clean_eq_render (p : GoString) :
    Clean p = render (decide (p.head? = some '/')) (pathElems p) := by
  cases p with
  | nil => simp [Clean, render, pathElems, splitSlash, cleanElems, joinSlash]
  | cons c cs =>
    by_cases hc : c = '/' <;> simp [Clean, render, pathElems, hc]

theorem StackOK_mem (rooted : Bool) (out : List GoString) (h : StackOK rooted out) :
    ∀ e ∈ out, e ≠ [] ∧ '/' ∉ e := by
  induction out with
  | nil => simp
  | cons o os ih =>
    intro e he
    have hs : StackOK rooted os := StackOK_suffix rooted [o] os (by simpa using h)
    simp only [StackOK] at h
    rcases List.mem_cons.1 he with rfl | he
    · exact ⟨h.1.1, h.1.2.2⟩
    · exact ih hs e he

theorem joinSlash_cons_head (e : GoString) (es : List GoString) (c : Char) (cs : GoString)
    (he : e = c :: cs) : ∃ t, joinSlash (e :: es) = c :: t := by
  subst he
  cases es with
  | nil => exact ⟨cs, rfl⟩
  | cons e1 es1 => exact ⟨cs ++ '/' :: joinSlash (e1 :: es1), rfl⟩

theorem pathElems_render (rooted : Bool) (out : List GoString) (h : StackOK rooted out) :
    pathElems (render rooted out.reverse) = out.reverse := by
  have hmem : ∀ e ∈ out.reverse, e ≠ [] ∧ '/' ∉ e := fun e he =>
    StackOK_mem rooted out h e (by simpa using he)
  have hclean : cleanElems rooted [] out.reverse = out.reverse := by
    simpa using cleanElems_of_StackOK rooted out.reverse [] (by simpa using h)
  cases hl : out.reverse with
  | nil =>
    cases rooted <;>
      simp [render, pathElems, joinSlash, splitSlash, cleanElems]
  | cons e es =>
    rw [hl] at hmem hclean
    obtain ⟨he1, he2⟩ := hmem e (by simp)
    cases he : e with
    | nil => exact absurd he he1
    | cons c cs =>
      obtain ⟨t, ht⟩ := joinSlash_cons_head e es c cs he
      have hc : c ≠ '/' := fun hc => he2 (by simp [he, hc])
      have hsplit : splitSlash (joinSlash (e :: es)) = e :: es :=
        splitSlash_joinSlash (e :: es) (by simp) (fun x hx => (hmem x hx).2)
      rw [← he]
      cases rooted with
      | true =>
        simp only [render, if_true, pathElems, List.head?_cons, decide_True,
          splitSlash_cons_slash, hsplit]
        unfold cleanElems
        simpa using hclean
      | false =>
        have hne : joinSlash (e :: es) ≠ [] := by rw [ht]; simp
        simp only [render, Bool.false_eq_true, if_false, hne, pathElems, hsplit]
        rw [ht]
        simpa [hc] using hclean

theorem pathElems_Join (p name : GoString) (hn : validName name = true) :
    pathElems (Join [p, name]) = pathElems p ++ [name] := by
  have hv := hn
  simp only [validName, Bool.and_eq_true, decide_eq_true_eq] at hv
  obtain ⟨⟨⟨h1, h2⟩, h3⟩, h4⟩ := hv
  cases p with
  | nil =>
    have hJ : Join [[], name] = Clean name := by
      simp [Join, h1, joinSlash]
    obtain ⟨c, cs, hname⟩ := List.exists_cons_of_ne_nil h1
    have hc : c ≠ '/' := fun hc => h4 (by simp [hname, hc])
    have hh : decide (name.head? = some '/') = false := by
      rw [hname]
      simp [hc]
    have hs : splitSlash name = [name] := splitSlash_noSlash name h4
    have hp : pathElems name = [name] := by
      simp only [pathElems, hs, hh]
      simp [cleanElems, h1, h2, h3]
    have hp0 : pathElems [] = [] := by
      simp [pathElems, splitSlash, cleanElems]
    have hr : pathElems (render false [name]) = [name] := by
      simpa using pathElems_render false [name] (by simp [StackOK, h1, h2, h3, h4])
    rw [hJ, Clean_eq_render, hp, hh, hr, hp0]
    simp
  | cons c cs =>
    have hJ : Join [c :: cs, name] = Clean ((c :: cs) ++ '/' :: name) := by
      simp [Join, joinSlash]
    have hsp : splitSlash ((c :: cs) ++ '/' :: name) = splitSlash (c :: cs) ++ [name] := by
      rw [splitSlash_append, splitSlash_noSlash name h4]
    have hpe : pathElems ((c :: cs) ++ '/' :: name) = pathElems (c :: cs) ++ [name] := by
      simp only [pathElems, hsp]
      simpa using cleanElems_append_name (decide (c = '/')) name hn (splitSlash (c :: cs)) []
    obtain ⟨out1, ho1, hok⟩ := cleanElems_StackOK (decide (c = '/')) (splitSlash (c :: cs) ++ [name]) []
      (by
        intro e he
        rcases List.mem_append.1 he with he | he
        · exact splitSlash_mem_noSlash _ e he
        · simp only [List.mem_singleton] at he
          subst he
          exact h4) trivial
    have hpe2 : pathElems ((c :: cs) ++ '/' :: name) = out1.reverse := by
      simp only [pathElems, hsp]
      simpa using ho1
    rw [hJ, Clean_eq_render, hpe2]
    have := pathElems_render (decide (c = '/')) out1 hok
    rw [← hpe, hpe2]
    simpa using this

theorem depth_Join (p name : GoString) (hn : validName name = true) :
    depth (Join [p, name]) = depth p + 1 := by
  simp [depth, pathElems_Join p name hn]

theorem elemsSize_cons (e : GoString) (l : List GoString) :
    elemsSize (e :: l) = e.length + 1 + elemsSize l := by
  simp [elemsSize]

theorem elemsSize_reverse (l : List GoString) : elemsSize l.reverse = elemsSize l := by
  simp [elemsSize, List.sum_reverse]

theorem elemsSize_append (a b : List GoString) :
    elemsSize (a ++ b) = elemsSize a + elemsSize b := by
  simp [elemsSize]

theorem splitSlash_size (p : GoString) : elemsSize (splitSlash p) = p.length + 1 := by
  induction p with
  | nil => simp [splitSlash, elemsSize]
  | cons c cs ih =>
    by_cases hc : c = '/'
    · subst hc
      rw [splitSlash_cons_slash, elemsSize_cons, ih]
      simp
      omega
    · cases h : splitSlash cs with
      | nil => exact absurd h (splitSlash_ne_nil cs)
      | cons e es =>
        rw [splitSlash_cons_other c cs e es hc h]
        rw [h] at ih
        simp only [elemsSize_cons, List.length_cons] at ih ⊢
        omega

theorem joinSlash_size (l : List GoString) (hl : l ≠ []) :
    (joinSlash l).length + 1 = elemsSize l := by
  induction l with
  | nil => exact absurd rfl hl
  | cons e es ih =>
    cases es with
    | nil => simp [joinSlash, elemsSize]
    | cons e1 es1 =>
      have := ih (by simp)
      rw [joinSlash_cons_cons, elemsSize_cons]
      simp only [List.length_append, List.length_cons]
      omega

theorem cleanElems_size (rooted : Bool) (xs out : List GoString) :
    elemsSize (cleanElems rooted out xs) + xs.count [] ≤ elemsSize out + elemsSize xs := by
  induction xs generalizing out with
  | nil =>
    have h1 : cleanElems rooted out [] = out.reverse := by simp [cleanElems]
    rw [h1, elemsSize_reverse]
    simp
  | cons e es ih =>
    unfold cleanElems
    by_cases he1 : e = []
    · subst he1
      have := ih out
      simp only [if_true, List.count_cons_self, elemsSize_cons, List.length_nil]
      omega
    · have hcount : (e :: es).count [] = es.count [] := by
        rw [List.count_cons_of_ne (fun h => he1 h.symm)]
      rw [hcount, if_neg he1, elemsSize_cons]
      by_cases he2 : e = ['.']
      · rw [if_pos he2]
        have := ih out
        omega
      · rw [if_neg he2]
        by_cases he3 : e = ['.', '.']
        · rw [if_pos he3]
          cases out with
          | nil =>
            cases rooted with
            | true =>
              have := ih []
              simp only [if_true]
              omega
            | false =>
              have := ih [e]
              simp only [elemsSize_cons] at this
              simp only [Bool.false_eq_true, if_false]
              simp only [elemsSize] at this ⊢
              simp only [List.map_nil, List.sum_nil] at this ⊢
              omega
          | cons o os =>
            by_cases ho : o = ['.', '.']
            · have := ih (e :: o :: os)
              simp only [ho, if_true] at this ⊢
              simp only [elemsSize_cons] at this ⊢
              omega
            · have := ih os
              simp only [ho, if_false]
              simp only [elemsSize_cons] at this ⊢
              omega
        · rw [if_neg he3]
          have := ih (e :: out)
          simp only [elemsSize_cons] at this
          omega

theorem dirPart_shape (d : GoString) :
    dirPart d = [] ∨ ∃ p, dirPart d = p ++ ['/'] ∧ p.length + 1 ≤ d.length := by
  induction d with
  | nil => exact Or.inl rfl
  | cons c cs ih =>
    unfold dirPart
    rcases ih with h | ⟨p, hp, hlen⟩
    · rw [h]
      by_cases hc : c = '/'
      · subst hc
        exact Or.inr ⟨[], by simp, by simp⟩
      · exact Or.inl (by simp [hc])
    · rw [hp]
      refine Or.inr ⟨c :: p, ?_, by simp only [List.length_cons]; omega⟩
      cases p <;> simp

theorem Clean_dir_shorter (p : GoString) :
    Clean (p ++ ['/']) = ['.'] ∨ Clean (p ++ ['/']) = ['/'] ∨
      (Clean (p ++ ['/'])).length < (p ++ ['/']).length := by
  cases p with
  | nil => exact Or.inr (Or.inl (by decide))
  | cons c p1 =>
    have hsplit : splitSlash ((c :: p1) ++ ['/']) = splitSlash (c :: p1) ++ [[]] := by
      rw [splitSlash_append]
      simp [splitSlash]
    have hsize := cleanElems_size (decide (c = '/')) (splitSlash ((c :: p1) ++ ['/'])) []
    rw [splitSlash_size] at hsize
    have hE : ∀ E : List GoString, E ≠ [] → (joinSlash E).length + 1 = elemsSize E :=
      joinSlash_size
    have hcount1 : 1 ≤ (splitSlash ((c :: p1) ++ ['/'])).count [] := by
      rw [hsplit, List.count_append]
      simp
    by_cases hc : c = '/'
    · subst hc
      have hcount2 : 2 ≤ (splitSlash (('/' :: p1) ++ ['/'])).count [] := by
        rw [hsplit, List.count_append, splitSlash_cons_slash]
        simp
      have hC : Clean (('/' :: p1) ++ ['/']) =
          '/' :: joinSlash (cleanElems true [] (splitSlash (('/' :: p1) ++ ['/']))) := by
        simp [Clean]
      rw [hC]
      by_cases hnil : cleanElems true [] (splitSlash (('/' :: p1) ++ ['/'])) = []
      · exact Or.inr (Or.inl (by rw [hnil]; rfl))
      · have := hE _ hnil
        simp only [decide_True, elemsSize, List.map_nil, List.sum_nil] at hsize
        simp only [elemsSize] at this
        refine Or.inr (Or.inr ?_)
        simp only [List.length_cons]
        omega
    · have hC : Clean ((c :: p1) ++ ['/']) =
          if joinSlash (cleanElems false [] (splitSlash ((c :: p1) ++ ['/']))) = [] then ['.']
          else joinSlash (cleanElems false [] (splitSlash ((c :: p1) ++ ['/']))) := by
        simp [Clean, hc]
      rw [hC]
      by_cases hj : joinSlash (cleanElems false [] (splitSlash ((c :: p1) ++ ['/']))) = []
      · exact Or.inl (by rw [if_pos hj])
      · rw [if_neg hj]
        have hnil : cleanElems false [] (splitSlash ((c :: p1) ++ ['/'])) ≠ [] := by
          intro h
          rw [h] at hj
          exact hj rfl
        have := hE _ hnil
        simp only [hc, decide_False, elemsSize, List.map_nil, List.sum_nil] at hsize
        simp only [elemsSize] at this
        refine Or.inr (Or.inr ?_)
        omega

theorem Dir_shorter (d : GoString) :
    Dir d = ['.'] ∨ Dir d = ['/'] ∨ (Dir d).length < d.length := by
  unfold Dir
  rcases dirPart_shape d with h | ⟨p, hp, hlen⟩
  · exact Or.inl (by rw [h]; rfl)
  · rw [hp]
    rcases Clean_dir_shorter p with h | h | h
    · exact Or.inl h
    · exact Or.inr (Or.inl h)
    · refine Or.inr (Or.inr ?_)
      simp only [List.length_append, List.length_singleton] at h
      omega

theorem tarAddDirectories_terminal (fuel : Nat) (tw : Writer) (dir : GoString)
    (h : dir = ['.'] ∨ dir = ['/']) : tarAddDirectories (fuel + 1) tw dir = some tw := by
  unfold tarAddDirectories
  rw [if_pos h]

theorem tarAddDirectories_step (fuel : Nat) (tw tw1 : Writer) (dir : GoString)
    (hterm : ¬(dir = ['.'] ∨ dir = ['/']))
    (h1 : tarAddDirectories fuel tw (Dir dir) = some tw1) :
    tarAddDirectories (fuel + 1) tw dir =
      some (tw1.WriteHeader { Name := dir, Typeflag := .TypeDir, Mode := 0o555, Size := 0 }) := by
  rw [tarAddDirectories, if_neg hterm, h1]

/-- With fuel above the length of `dir`, `tarAddDirectories` returns. -/
theorem tarAddDirectories_total (n : Nat) : ∀ (dir : GoString) (tw : Writer),
    dir.length ≤ n → ∃ tw1, tarAddDirectories (n + 2) tw dir = some tw1 := by
  induction n with
  | zero =>
    intro dir tw hlen
    by_cases hterm : dir = ['.'] ∨ dir = ['/']
    · exact ⟨tw, tarAddDirectories_terminal _ tw dir hterm⟩
    · rcases Dir_shorter dir with h | h | h
      · exact ⟨_, tarAddDirectories_step 1 tw tw dir hterm
          (tarAddDirectories_terminal 0 tw _ (Or.inl h))⟩
      · exact ⟨_, tarAddDirectories_step 1 tw tw dir hterm
          (tarAddDirectories_terminal 0 tw _ (Or.inr h))⟩
      · omega
  | succ k ih =>
    intro dir tw hlen
    by_cases hterm : dir = ['.'] ∨ dir = ['/']
    · exact ⟨tw, tarAddDirectories_terminal _ tw dir hterm⟩
    · rcases Dir_shorter dir with h | h | h
      · exact ⟨_, tarAddDirectories_step (k + 2) tw tw dir hterm
          (tarAddDirectories_terminal (k + 1) tw _ (Or.inl h))⟩
      · exact ⟨_, tarAddDirectories_step (k + 2) tw tw dir hterm
          (tarAddDirectories_terminal (k + 1) tw _ (Or.inr h))⟩
      · obtain ⟨tw1, h1⟩ := ih (Dir dir) tw (by omega)
        exact ⟨_, tarAddDirectories_step (k + 2) tw tw1 dir hterm h1⟩

/-! ## Theorems: the walk -/

theorem tarDataFn_grows (src dst path : GoString) (n : Node) (err : Option Error)
    (tw tw1 : Writer) (h : tarDataFn src dst path n err tw = .ok tw1) :
    ∃ m, tw1 = m ++ tw ∧ ∀ x ∈ m, Written dst x := by
  unfold tarDataFn at h
  by_cases hp : path = src
  · rw [if_pos hp] at h
    cases h
    exact ⟨[{ hdr := dstHeader dst, data := [] }], rfl, by simp [Written]⟩
  · rw [if_neg hp] at h
    cases err with
    | some e => simp at h
    | none =>
      simp only at h
      by_cases hd : n.IsDir = true
      · rw [if_pos hd] at h
        cases h
        exact ⟨[], rfl, by simp⟩
      · rw [if_neg hd] at h
        cases hs : os_Stat n with
        | error e => simp [hs] at h
        | ok size =>
          cases ho : os_Open n with
          | error e => simp [hs, ho] at h
          | ok file =>
            cases hl : sliceFrom path src.length with
            | error e => simp [hs, ho, hl] at h
            | ok rel =>
              cases file with
              | error e => simp [hs, ho, hl, io_Copy] at h
              | ok content =>
                simp only [hs, ho, hl, io_Copy, Writer.WriteHeader, Writer.Write] at h
                cases h
                exact ⟨[_], rfl, by simp [Written]⟩

mutual
theorem walk_grows (src dst path : GoString) (n : Node) (tw tw1 : Writer)
    (h : walk (tarDataFn src dst) path n tw = .ok tw1) :
    ∃ m, tw1 = m ++ tw ∧ ∀ x ∈ m, Written dst x := by
  cases n with
  | lstatErr e => exact tarDataFn_grows _ _ _ _ _ _ _ (by simpa [walk] using h)
  | nondir t => exact tarDataFn_grows _ _ _ _ _ _ _ (by simpa [walk] using h)
  | unreadableDir e => exact tarDataFn_grows _ _ _ _ _ _ _ (by simpa [walk] using h)
  | dir names =>
    rw [walk] at h
    cases hf : tarDataFn src dst path (.dir names) none tw with
    | error e => simp [hf] at h
    | ok tw2 =>
      simp only [hf] at h
      obtain ⟨m1, rfl, hm1⟩ := tarDataFn_grows _ _ _ _ _ _ _ hf
      obtain ⟨m2, rfl, hm2⟩ := walkNames_grows src dst path names _ _ h
      refine ⟨m2 ++ m1, by simp, ?_⟩
      intro x hx
      rcases List.mem_append.1 hx with hx | hx
      · exact hm2 x hx
      · exact hm1 x hx
theorem walkNames_grows (src dst path : GoString) (names : Entries) (tw tw1 : Writer)
    (h : walkNames (tarDataFn src dst) path names tw = .ok tw1) :
    ∃ m, tw1 = m ++ tw ∧ ∀ x ∈ m, Written dst x := by
  cases names with
  | nil =>
    simp only [walkNames] at h
    cases h
    exact ⟨[], rfl, by simp⟩
  | cons name n rest =>
    rw [walkNames] at h
    cases hf : walk (tarDataFn src dst) (Join [path, name]) n tw with
    | error e => simp [hf] at h
    | ok tw2 =>
      simp only [hf] at h
      obtain ⟨m1, rfl, hm1⟩ := walk_grows src dst _ n _ _ hf
      obtain ⟨m2, rfl, hm2⟩ := walkNames_grows src dst path rest _ _ h
      refine ⟨m2 ++ m1, by simp, ?_⟩
      intro x hx
      rcases List.mem_append.1 hx with hx | hx
      · exact hm2 x hx
      · exact hm1 x hx
end

theorem Entries_valid_insert (name : GoString) (n : Node) : ∀ es : Entries,
    (Entries.insert name n es).valid = (validName name && n.valid && es.valid)
  | .nil => by simp [Entries.insert, Entries.valid]
  | .cons name1 n1 rest => by
    have ih := Entries_valid_insert name n rest
    unfold Entries.insert
    split_ifs
    · simp [Entries.valid]
    · simp only [Entries.valid, ih]
      cases validName name <;> cases n.valid <;> cases validName name1 <;>
        cases n1.valid <;> simp

theorem Entries_fails_insert (name : GoString) (n : Node) : ∀ es : Entries,
    (Entries.insert name n es).fails = (n.fails || es.fails)
  | .nil => by simp [Entries.insert, Entries.fails]
  | .cons name1 n1 rest => by
    have ih := Entries_fails_insert name n rest
    unfold Entries.insert
    split_ifs
    · simp [Entries.fails]
    · simp only [Entries.fails, ih]
      cases n.fails <;> cases n1.fails <;> simp

mutual
theorem Node_valid_sorted (n : Node) : n.sorted.valid = n.valid := by
  cases n with
  | dir names => simp only [Node.sorted, Node.valid]; exact Entries_valid_sorted names
  | lstatErr e => rfl
  | unreadableDir e => rfl
  | nondir t => rfl
theorem Entries_valid_sorted (es : Entries) : es.sorted.valid = es.valid := by
  cases es with
  | nil => rfl
  | cons name n rest =>
    simp only [Entries.sorted, Entries_valid_insert, Entries.valid]
    rw [Node_valid_sorted n, Entries_valid_sorted rest]
end

mutual
theorem Node_fails_sorted (n : Node) : n.sorted.fails = n.fails := by
  cases n with
  | dir names => simp only [Node.sorted, Node.fails]; exact Entries_fails_sorted names
  | lstatErr e => rfl
  | unreadableDir e => rfl
  | nondir t => rfl
theorem Entries_fails_sorted (es : Entries) : es.sorted.fails = es.fails := by
  cases es with
  | nil => rfl
  | cons name n rest =>
    simp only [Entries.sorted, Entries_fails_insert, Entries.fails]
    rw [Node_fails_sorted n, Entries_fails_sorted rest]
end

theorem ne_of_depth_lt (src path : GoString) (h : depth src < depth path) : path ≠ src := by
  intro hp
  rw [hp] at h
  exact lt_irrefl _ h

/-- Below the source root the function literal writes at most one member, a
regular-file member with the fixed mode. -/
theorem tarDataFn_below (src dst path : GoString) (n : Node) (err : Option Error)
    (tw tw1 : Writer) (hp : path ≠ src) (h : tarDataFn src dst path n err tw = .ok tw1) :
    ∃ m, tw1 = m ++ tw ∧ ∀ x ∈ m, x.hdr.Typeflag = .TypeReg := by
  obtain ⟨m, hm, hw⟩ := tarDataFn_grows src dst path n err tw tw1 h
  unfold tarDataFn at h
  rw [if_neg hp] at h
  cases err with
  | some e => simp at h
  | none =>
    simp only at h
    by_cases hd : n.IsDir = true
    · rw [if_pos hd] at h
      cases h
      exact ⟨[], rfl, by simp⟩
    · rw [if_neg hd] at h
      cases hs : os_Stat n with
      | error e => simp [hs] at h
      | ok size =>
        cases ho : os_Open n with
        | error e => simp [hs, ho] at h
        | ok file =>
          cases hl : sliceFrom path src.length with
          | error e => simp [hs, ho, hl] at h
          | ok rel =>
            cases file with
            | error e => simp [hs, ho, hl, io_Copy] at h
            | ok content =>
              simp only [hs, ho, hl, io_Copy, Writer.WriteHeader, Writer.Write] at h
              cases h
              exact ⟨[_], rfl, by simp⟩

mutual
theorem walk_below (src dst path : GoString) (n : Node) (tw tw1 : Writer)
    (hd : depth src < depth path) (hv : n.valid = true)
    (h : walk (tarDataFn src dst) path n tw = .ok tw1) :
    ∃ m, tw1 = m ++ tw ∧ ∀ x ∈ m, x.hdr.Typeflag = .TypeReg := by
  have hp := ne_of_depth_lt src path hd
  cases n with
  | lstatErr e => exact tarDataFn_below _ _ _ _ _ _ _ hp (by simpa [walk] using h)
  | nondir t => exact tarDataFn_below _ _ _ _ _ _ _ hp (by simpa [walk] using h)
  | unreadableDir e => exact tarDataFn_below _ _ _ _ _ _ _ hp (by simpa [walk] using h)
  | dir names =>
    rw [walk] at h
    cases hf : tarDataFn src dst path (.dir names) none tw with
    | error e => simp [hf] at h
    | ok tw2 =>
      simp only [hf] at h
      obtain ⟨m1, rfl, hm1⟩ := tarDataFn_below _ _ _ _ _ _ _ hp hf
      obtain ⟨m2, rfl, hm2⟩ := walkNames_below src dst path names _ _ (le_of_lt hd)
        (by simpa [Node.valid] using hv) h
      refine ⟨m2 ++ m1, by simp, ?_⟩
      intro x hx
      rcases List.mem_append.1 hx with hx | hx
      · exact hm2 x hx
      · exact hm1 x hx
theorem walkNames_below (src dst path : GoString) (names : Entries) (tw tw1 : Writer)
    (hd : depth src ≤ depth path) (hv : names.valid = true)
    (h : walkNames (tarDataFn src dst) path names tw = .ok tw1) :
    ∃ m, tw1 = m ++ tw ∧ ∀ x ∈ m, x.hdr.Typeflag = .TypeReg := by
  cases names with
  | nil =>
    simp only [walkNames] at h
    cases h
    exact ⟨[], rfl, by simp⟩
  | cons name n rest =>
    simp only [Entries.valid, Bool.and_eq_true] at hv
    obtain ⟨⟨hv1, hv2⟩, hv3⟩ := hv
    rw [walkNames] at h
    cases hf : walk (tarDataFn src dst) (Join [path, name]) n tw with
    | error e => simp [hf] at h
    | ok tw2 =>
      simp only [hf] at h
      obtain ⟨m1, rfl, hm1⟩ := walk_below src dst _ n _ _
        (by rw [depth_Join path name hv1]; omega) hv2 hf
      obtain ⟨m2, rfl, hm2⟩ := walkNames_below src dst path rest _ _ hd hv3 h
      refine ⟨m2 ++ m1, by simp, ?_⟩
      intro x hx
      rcases List.mem_append.1 hx with hx | hx
      · exact hm2 x hx
      · exact hm1 x hx
end

/-- Below the source root a failing operation makes the function literal
return an error. -/
theorem tarDataFn_fails (src dst path : GoString) (n : Node) (err : Option Error)
    (tw : Writer) (hp : path ≠ src)
    (hn : (∃ e, n = .lstatErr e ∧ err = some e) ∨ (∃ e, n = .unreadableDir e ∧ err = some e) ∨
      (∃ t, n = .nondir t ∧ (Node.nondir t).fails = true)) :
    ∃ e, tarDataFn src dst path n err tw = .error e := by
  unfold tarDataFn
  rw [if_neg hp]
  rcases hn with ⟨e, rfl, rfl⟩ | ⟨e, rfl, rfl⟩ | ⟨t, rfl, ht⟩
  · exact ⟨e, rfl⟩
  · exact ⟨e, rfl⟩
  · cases err with
    | some e => exact ⟨e, rfl⟩
    | none =>
      cases t with
      | regular c => simp [Node.fails] at ht
      | statErr e => exact ⟨e, by simp [Node.IsDir, os_Stat]⟩
      | openErr size e => exact ⟨e, by simp [Node.IsDir, os_Stat, os_Open]⟩
      | readErr size e =>
        cases hl : sliceFrom path src.length with
        | error e1 => exact ⟨e1, by simp [Node.IsDir, os_Stat, os_Open, hl]⟩
        | ok rel => exact ⟨e, by simp [Node.IsDir, os_Stat, os_Open, hl, io_Copy]⟩

mutual
theorem walk_fails (src dst path : GoString) (n : Node) (tw : Writer)
    (hd : depth src < depth path) (hv : n.valid = true) (hf : n.fails = true) :
    ∃ e, walk (tarDataFn src dst) path n tw = .error e := by
  have hp := ne_of_depth_lt src path hd
  cases n with
  | lstatErr e =>
    rw [walk]
    exact tarDataFn_fails _ _ _ _ _ _ hp (Or.inl ⟨e, rfl, rfl⟩)
  | unreadableDir e =>
    rw [walk]
    exact tarDataFn_fails _ _ _ _ _ _ hp (Or.inr (Or.inl ⟨e, rfl, rfl⟩))
  | nondir t =>
    rw [walk]
    exact tarDataFn_fails _ _ _ _ _ _ hp (Or.inr (Or.inr ⟨t, rfl, hf⟩))
  | dir names =>
    rw [walk]
    cases hfn : tarDataFn src dst path (.dir names) none tw with
    | error e => exact ⟨e, rfl⟩
    | ok tw2 =>
      exact walkNames_fails src dst path names tw2 (le_of_lt hd)
        (by simpa [Node.valid] using hv) (by simpa [Node.fails] using hf)
theorem walkNames_fails (src dst path : GoString) (names : Entries) (tw : Writer)
    (hd : depth src ≤ depth path) (hv : names.valid = true) (hf : names.fails = true) :
    ∃ e, walkNames (tarDataFn src dst) path names tw = .error e := by
  cases names with
  | nil => simp [Entries.fails] at hf
  | cons name n rest =>
    simp only [Entries.valid, Bool.and_eq_true] at hv
    obtain ⟨⟨hv1, hv2⟩, hv3⟩ := hv
    rw [walkNames]
    cases hw : walk (tarDataFn src dst) (Join [path, name]) n tw with
    | error e => exact ⟨e, rfl⟩
    | ok tw2 =>
      have hnf : n.fails = false := by
        by_contra hc
        obtain ⟨e, he⟩ := walk_fails src dst (Join [path, name]) n tw
          (by rw [depth_Join path name hv1]; omega) hv2 (by simpa using hc)
        rw [he] at hw
        cases hw
      simp only [Entries.fails, hnf, Bool.false_or] at hf
      exact walkNames_fails src dst path rest tw2 hd hv3 hf
end

/-! ## Theorems: the archiver -/

theorem tarData_root (fs : FS) (src dst : GoString) (a : Archive)
    (h : tarData fs src dst = .ok a) :
    ∃ m, a = { hdr := dstHeader dst, data := [] } :: m ∧ ∀ x ∈ m, Written dst x := by
  unfold tarData Walk at h
  cases hw : walk (tarDataFn src dst) src (fs src).sorted [] with
  | error e => simp [hw] at h
  | ok tw =>
    simp only [hw, Except.ok.injEq] at h
    subst h
    have hroot : ∀ n err, tarDataFn src dst src n err [] =
        .ok [{ hdr := dstHeader dst, data := [] }] := by
      intro n err
      simp [tarDataFn, Writer.WriteHeader, dstHeader]
    cases hn : (fs src).sorted with
    | lstatErr e =>
      rw [hn, walk, hroot] at hw
      cases hw
      exact ⟨[], rfl, by simp⟩
    | nondir t =>
      rw [hn, walk, hroot] at hw
      cases hw
      exact ⟨[], rfl, by simp⟩
    | unreadableDir e =>
      rw [hn, walk, hroot] at hw
      cases hw
      exact ⟨[], rfl, by simp⟩
    | dir names =>
      rw [hn, walk, hroot] at hw
      simp only at hw
      obtain ⟨m, rfl, hm⟩ := walkNames_grows src dst src names _ _ hw
      exact ⟨m.reverse, by simp [Writer.Close], fun x hx => hm x (by simpa using hx)⟩

theorem tarAddDirectories_mode (fuel : Nat) (tw tw1 : Writer) (dir : GoString)
    (h : tarAddDirectories fuel tw dir = some tw1) (htw : ∀ m ∈ tw, m.hdr.Mode = 0o555) :
    ∀ m ∈ tw1, m.hdr.Mode = 0o555 := by
  induction fuel generalizing tw tw1 dir with
  | zero => simp [tarAddDirectories] at h
  | succ k ih =>
    unfold tarAddDirectories at h
    split_ifs at h with hdir
    · cases h
      exact htw
    · cases hr : tarAddDirectories k tw (Dir dir) with
      | none => simp [hr] at h
      | some tw2 =>
        simp only [hr, Option.some.injEq] at h
        subst h
        intro m hm
        simp only [Writer.WriteHeader, List.mem_cons] at hm
        rcases hm with rfl | hm
        · rfl
        · exact ih tw tw2 (Dir dir) hr htw m hm

/-- C4, as the code has it: for every source tree with valid names and every
destination root, an archive returned by `tarData` starts with the directory
header of the destination root, and every header after it is a regular-file
header: no header is written for an ancestor of the destination root or for
a directory below the source root, and the header of the destination root
precedes the header of every file beneath it. -/
theorem tarData_headers_shape (fs : FS) (src dst : GoString) (a : Archive)
    (hv : (fs src).valid = true) (h : tarData fs src dst = .ok a) :
    ∃ rest, a = { hdr := dstHeader dst, data := [] } :: rest ∧
      ∀ m ∈ rest, m.hdr.Typeflag = .TypeReg := by
  unfold tarData Walk at h
  cases hw : walk (tarDataFn src dst) src (fs src).sorted [] with
  | error e => simp [hw] at h
  | ok tw =>
    simp only [hw, Except.ok.injEq] at h
    subst h
    have hroot : ∀ n err, tarDataFn src dst src n err [] =
        .ok [{ hdr := dstHeader dst, data := [] }] := by
      intro n err
      simp [tarDataFn, Writer.WriteHeader, dstHeader]
    have hvs : (fs src).sorted.valid = true := by rw [Node_valid_sorted]; exact hv
    cases hn : (fs src).sorted with
    | lstatErr e =>
      rw [hn, walk, hroot] at hw
      cases hw
      exact ⟨[], rfl, by simp⟩
    | nondir t =>
      rw [hn, walk, hroot] at hw
      cases hw
      exact ⟨[], rfl, by simp⟩
    | unreadableDir e =>
      rw [hn, walk, hroot] at hw
      cases hw
      exact ⟨[], rfl, by simp⟩
    | dir names =>
      rw [hn, walk, hroot] at hw
      simp only at hw
      rw [hn] at hvs
      obtain ⟨m, rfl, hm⟩ := walkNames_below src dst src names _ _ (le_refl _)
        (by simpa [Node.valid] using hvs) hw
      exact ⟨m.reverse, by simp [Writer.Close], fun x hx => hm x (by simpa using hx)⟩

/-- Witness of `tarData_headers_shape`: the tree holding `a/b/c/file.txt`
and `b.js`, archived under `/var/run/ko`. -/
theorem tarData_headers_shape_witness :
    (treeFS "/src/app".toList).valid = true ∧
      tarData treeFS "/src/app".toList kodataRoot =
        .ok [dstMember kodataRoot,
          fileMember "/var/run/ko/a/b/c/file.txt".toList "hi".toList,
          fileMember "/var/run/ko/b.js".toList "x".toList] ∧
      ∃ rest,
        [dstMember kodataRoot,
          fileMember "/var/run/ko/a/b/c/file.txt".toList "hi".toList,
          fileMember "/var/run/ko/b.js".toList "x".toList] =
          { hdr := dstHeader kodataRoot, data := [] } :: rest ∧
        ∀ m ∈ rest, m.hdr.Typeflag = .TypeReg :=
  ⟨rfl, rfl, tarData_headers_shape treeFS "/src/app".toList kodataRoot _ rfl rfl⟩

/-- C4 fails as stated: archiving the tree that holds `a/b/c/file.txt` under
`/var/run/ko` writes the headers `/var/run/ko`, `/var/run/ko/a/b/c/file.txt`,
`/var/run/ko/b.js` and no other: there is no header for `/var`, `/var/run`,
`/var/run/ko/a`, `/var/run/ko/a/b` or `/var/run/ko/a/b/c`. -/
theorem tarData_ancestors_counterexample :
    (tarData treeFS "/src/app".toList kodataRoot).toOption.map
        (fun a => a.map (fun m => m.hdr.Name)) =
      some ["/var/run/ko".toList, "/var/run/ko/a/b/c/file.txt".toList,
        "/var/run/ko/b.js".toList] ∧
    "/var".toList ∉ ["/var/run/ko".toList, "/var/run/ko/a/b/c/file.txt".toList,
        "/var/run/ko/b.js".toList] ∧
    "/var/run".toList ∉ ["/var/run/ko".toList, "/var/run/ko/a/b/c/file.txt".toList,
        "/var/run/ko/b.js".toList] ∧
    "/var/run/ko/a".toList ∉ ["/var/run/ko".toList, "/var/run/ko/a/b/c/file.txt".toList,
        "/var/run/ko/b.js".toList] ∧
    "/var/run/ko/a/b".toList ∉ ["/var/run/ko".toList, "/var/run/ko/a/b/c/file.txt".toList,
        "/var/run/ko/b.js".toList] ∧
    "/var/run/ko/a/b/c".toList ∉ ["/var/run/ko".toList, "/var/run/ko/a/b/c/file.txt".toList,
        "/var/run/ko/b.js".toList] :=
  ⟨rfl, by decide, by decide, by decide, by decide, by decide⟩

/-- Below the source root a failing operation stops the walk: when the
source root is a readable directory with valid names and `Lstat` of an
entry, reading a subdirectory, `Stat` of a link target, `Open` or reading a
file fails, `tarData` returns no archive (the walk function returns the
failure; for a source path that is not clean the slice expression can
panic first). -/
theorem tarData_error_below (fs : FS) (src dst : GoString) (names : Entries)
    (hroot : fs src = .dir names) (hv : names.valid = true) (hf : names.fails = true) :
    ∃ e, tarData fs src dst = .error e := by
  have hvs : names.sorted.valid = true := by rw [Entries_valid_sorted]; exact hv
  have hfs : names.sorted.fails = true := by rw [Entries_fails_sorted]; exact hf
  have hfn : tarDataFn src dst src (.dir names.sorted) none [] =
      .ok [{ hdr := dstHeader dst, data := [] }] := by
    simp [tarDataFn, Writer.WriteHeader, dstHeader]
  obtain ⟨e, he⟩ := walkNames_fails src dst src names.sorted
    [{ hdr := dstHeader dst, data := [] }] (le_refl _) hvs hfs
  refine ⟨e, ?_⟩
  unfold tarData Walk
  rw [hroot, Node.sorted, walk, hfn]
  simp only [he]

/-- C5 at the missing directory `/src/missing-dir`: `Lstat` of the source
root fails, `filepath.Walk` calls the walk function with `path == src` and
that error, and the function writes the header of the destination root and
returns nil before it looks at the error.  `tarData` returns an archive
holding that one header and no error, and `Build("/src", "missing-dir")`
returns an image whose application layer is that archive.  A failure below
the root, the dangling link `lib/link` of `/src/app`, is returned. -/
theorem tarData_missing_root_returns_archive :
    treeFS "/src/missing-dir".toList = .lstatErr (.os "no such file or directory") ∧
      tarDataFn "/src/missing-dir".toList appDir "/src/missing-dir".toList
          (.lstatErr (.os "no such file or directory"))
          (some (.os "no such file or directory")) [] = .ok [dstMember appDir] ∧
      tarData treeFS "/src/missing-dir".toList appDir = .ok [dstMember appDir] ∧
      (exampleBuilder.Build treeFS 42 "/src".toList "missing-dir".toList).toOption.map
          (fun img => img.layers) =
        some [{ archive := [dstMember "/usr".toList] }, { archive := [dstMember appDir] }] ∧
      tarData brokenFS "/src/app".toList appDir =
        .error (.os "no such file or directory") :=
  ⟨rfl, rfl, rfl, rfl, rfl⟩

/-- C9, as the code has it: every header of an archive `tarData` returns,
and every header `tarAddDirectories` writes, carries the mode `0o555`
whatever the source entry is; the mode has no write bit and has the execute
bit set for owner, group and other.  (`tarAddDirectories` returns for every
directory path.) -/
theorem tarData_mode_fixed (fs : FS) (src dst : GoString) (a : Archive)
    (h : tarData fs src dst = .ok a) :
    (∀ m ∈ a, m.hdr.Mode = 0o555 ∧ m.hdr.Mode &&& 0o222 = 0 ∧ m.hdr.Mode &&& 0o111 = 0o111) ∧
      (∀ dir, ∃ tw, tarAddDirectories (dir.length + 2) [] dir = some tw) ∧
      ∀ fuel dir tw, tarAddDirectories fuel [] dir = some tw →
        ∀ m ∈ tw, m.hdr.Mode = 0o555 := by
  refine ⟨?_, ?_, ?_⟩
  · obtain ⟨rest, rfl, hrest⟩ := tarData_root fs src dst a h
    have hmode : ∀ m ∈ ({ hdr := dstHeader dst, data := [] } :: rest : List Member),
        m.hdr.Mode = 0o555 := by
      intro m hm
      rcases List.mem_cons.1 hm with rfl | hm
      · rfl
      · rcases hrest m hm with rfl | ⟨_, h2⟩
        · rfl
        · exact h2
    intro m hm
    have := hmode m hm
    rw [this]
    decide
  · intro dir
    exact tarAddDirectories_total dir.length dir [] (le_refl _)
  · intro fuel dir tw htw
    exact tarAddDirectories_mode fuel [] tw dir htw (by simp)

/-- Witness of `tarData_mode_fixed`: the tree holding `a/b/c/file.txt`. -/
theorem tarData_mode_fixed_witness :
    tarData treeFS "/src/app".toList appDir =
        .ok [dstMember appDir, fileMember "/ko-app/a/b/c/file.txt".toList "hi".toList,
          fileMember "/ko-app/b.js".toList "x".toList] ∧
      tarAddDirectories 4 [] kodataRoot =
        some [dstMember "/var/run/ko".toList, dstMember "/var/run".toList,
          dstMember "/var".toList] ∧
      ((∀ m ∈ [dstMember appDir, fileMember "/ko-app/a/b/c/file.txt".toList "hi".toList,
          fileMember "/ko-app/b.js".toList "x".toList],
          m.hdr.Mode = 0o555 ∧ m.hdr.Mode &&& 0o222 = 0 ∧ m.hdr.Mode &&& 0o111 = 0o111) ∧
        (∀ dir, ∃ tw, tarAddDirectories (dir.length + 2) [] dir = some tw) ∧
        ∀ fuel dir tw, tarAddDirectories fuel [] dir = some tw →
          ∀ m ∈ tw, m.hdr.Mode = 0o555) :=
  ⟨rfl, rfl, tarData_mode_fixed treeFS "/src/app".toList appDir _ rfl⟩

/-- C9 fails as stated: in the archive of the tree holding `a/b/c/file.txt`
the permission bits of the header of the destination root and of the file
headers are `0o555`, and their execute bits are set: `0o555 AND 0o111` is
`0o111`, not `0`. -/
theorem tarData_mode_counterexample :
    tarData treeFS "/src/app".toList kodataRoot =
        .ok [dstMember kodataRoot,
          fileMember "/var/run/ko/a/b/c/file.txt".toList "hi".toList,
          fileMember "/var/run/ko/b.js".toList "x".toList] ∧
      (dstMember kodataRoot).hdr.Mode &&& 0o111 = 0o111 ∧
      (dstMember kodataRoot).hdr.Mode &&& 0o111 ≠ 0 ∧
      (fileMember "/var/run/ko/a/b/c/file.txt".toList "hi".toList).hdr.Mode &&& 0o111 ≠ 0 :=
  ⟨rfl, by decide, by decide, by decide⟩

/-- C10 at the source directory `.`: the walk visits `main.js` at the path
`main.js`, the slice `path[len(src):]` drops its first byte, and the header
is named `/ko-app/ain.js`, not `/ko-app/main.js`. -/
theorem tarData_dot_drops_first_byte :
    Join [".".toList, "main.js".toList] = "main.js".toList ∧
      sliceFrom "main.js".toList ".".toList.length = .ok "ain.js".toList ∧
      tarData dotFS ".".toList appDir =
        .ok [dstMember appDir, fileMember "/ko-app/ain.js".toList "x".toList] ∧
      Join [appDir, "main.js".toList] = "/ko-app/main.js".toList ∧
      fileMember "/ko-app/ain.js".toList "x".toList ≠
        fileMember "/ko-app/main.js".toList "x".toList :=
  ⟨rfl, rfl, rfl, rfl, by decide⟩

/-! ## Theorems: the image assembler -/

/-- What a successful `Build` went through: the application archive, the
base image and its configuration, and the configuration of the result. -/
theorem Build_ok {ρ : Type} (gb : gobuild ρ) (fs : FS) (now : Time) (basedir s : GoString)
    (img : Image ρ) (h : gb.Build fs now basedir s = .ok img) :
    ∃ app base cf0, tarData fs (Join [basedir, s]) appDir = .ok app ∧
      gb.getBase s = .ok base ∧ base.configFile = .ok cf0 ∧
      img.layers = base.layers ++ [{ archive := app }] ∧
      ∃ created, img.configFile = .ok
        { Author := "github.com/ibm/kone".toList
          Created := created
          Config :=
            { Entrypoint := ["node".toList, Join [appDir, appFilename s]]
              WorkingDir := appDir
              Env := cf0.Config.Env ++ ["KONE_DATA_PATH=".toList ++ kodataRoot]
              rest := cf0.Config.rest }
          ContainerConfig :=
            { Entrypoint := ["node".toList, Join [appDir, appFilename s]]
              WorkingDir := appDir
              Env := cf0.Config.Env ++ ["KONE_DATA_PATH=".toList ++ kodataRoot]
              rest := cf0.Config.rest }
          History := cf0.History ++
            [{ Author := "kone".toList, CreatedBy := "kone publish ".toList ++ s,
               Created := now }]
          rest := cf0.rest } := by
  unfold gobuild.Build tarNodeApp at h
  cases ht : tarData fs (Join [basedir, s]) appDir with
  | error e => simp [ht] at h
  | ok app =>
    cases hb : gb.getBase s with
    | error e => simp [ht, hb, LayerFromOpener] at h
    | ok base =>
      cases hc : base.configFile with
      | error e => simp [ht, hb, hc, LayerFromOpener, mutate_Append] at h
      | ok cf0 =>
        refine ⟨app, base, cf0, rfl, rfl, hc, ?_⟩
        simp only [ht, hb, hc, LayerFromOpener, mutate_Append, mutate_ConfigFile,
          mutate_CreatedAt] at h
        by_cases hct : gb.creationTime = Time.empty
        · simp only [hct, ne_eq, not_true_eq_false, if_false, Except.ok.injEq] at h
          subst h
          exact ⟨by simp, cf0.Created, rfl⟩
        · simp only [ne_eq, hct, not_false_eq_true, if_true, Except.ok.injEq] at h
          subst h
          exact ⟨by simp, gb.creationTime, rfl⟩

/-- C7: for every base image and every `(basedir, s)` for which `Build`
succeeds, the configuration of the returned image has the entrypoint
`node /ko-app/main.js`, the working directory `/ko-app`, the environment of
the base configuration followed by `KONE_DATA_PATH=/var/run/ko`, a
`ContainerConfig` equal to the rewritten `Config`, the author
`github.com/ibm/kone`, and every other field of `Config` as in the base
configuration. -/
theorem Build_config {ρ : Type} (gb : gobuild ρ) (fs : FS) (now : Time)
    (basedir s : GoString) (img : Image ρ) (h : gb.Build fs now basedir s = .ok img) :
    ∃ base cf0 cf, gb.getBase s = .ok base ∧ base.configFile = .ok cf0 ∧
      img.configFile = .ok cf ∧
      cf.Config.Entrypoint = ["node".toList, "/ko-app/main.js".toList] ∧
      cf.Config.WorkingDir = "/ko-app".toList ∧
      cf.Config.Env = cf0.Config.Env ++ ["KONE_DATA_PATH=/var/run/ko".toList] ∧
      cf.ContainerConfig = cf.Config ∧
      cf.Author = "github.com/ibm/kone".toList ∧
      cf.Config.rest = cf0.Config.rest := by
  obtain ⟨app, base, cf0, _, hb, hc, _, created, hcf⟩ := Build_ok gb fs now basedir s img h
  exact ⟨base, cf0, _, hb, hc, hcf, rfl, rfl, rfl, rfl, rfl, rfl⟩

/-- Witness of `Build_config`: building `/src/app` on the example base. -/
theorem Build_config_witness :
    (exampleBuilder.Build appFS 42 "/src".toList "app".toList).toOption.isSome = true ∧
      ∃ img, exampleBuilder.Build appFS 42 "/src".toList "app".toList = .ok img ∧
        ∃ base cf0 cf, exampleBuilder.getBase "app".toList = .ok base ∧
          base.configFile = .ok cf0 ∧ img.configFile = .ok cf ∧
          cf.Config.Entrypoint = ["node".toList, "/ko-app/main.js".toList] ∧
          cf.Config.WorkingDir = "/ko-app".toList ∧
          cf.Config.Env = cf0.Config.Env ++ ["KONE_DATA_PATH=/var/run/ko".toList] ∧
          cf.ContainerConfig = cf.Config ∧
          cf.Author = "github.com/ibm/kone".toList ∧
          cf.Config.rest = cf0.Config.rest :=
  ⟨rfl, _, rfl, Build_config exampleBuilder appFS 42 "/src".toList "app".toList _ rfl⟩

/-- C6 at an application with a `kodata` directory: the image `Build`
returns has the layer of the base image and one layer more, the archive of
`/src/app` rooted at `/ko-app` with the history author `kone` and the
description `kone publish app`.  No layer is rooted at `/var/run/ko`: the
archive `tarKoData` makes of `/src/app/kodata` is not among the layers,
while the environment announces `KONE_DATA_PATH=/var/run/ko`. -/
theorem Build_appends_one_layer :
    (exampleBuilder.Build appFS 42 "/src".toList "app".toList).toOption.map
        (fun img => img.layers) =
      some [{ archive := [dstMember "/usr".toList] },
        { archive :=
            [dstMember "/ko-app".toList,
              fileMember "/ko-app/kodata/data.txt".toList "d".toList,
              fileMember "/ko-app/main.js".toList "x".toList,
              fileMember "/ko-app/package.json".toList
                "\x7b\"name\": \"foo\"\x7d".toList] }] ∧
      tarKoData appFS "/src/app".toList =
        .ok [dstMember "/var/run/ko".toList,
          fileMember "/var/run/ko/data.txt".toList "d".toList] ∧
      (exampleBuilder.Build appFS 42 "/src".toList "app".toList).toOption.map
        (fun img => img.configFile.toOption.map (fun cf => (cf.Config.Env, cf.History))) =
      some (some (["PATH=/usr/bin".toList, "KONE_DATA_PATH=/var/run/ko".toList],
        [{ Author := "kone".toList, CreatedBy := "kone publish app".toList, Created := 42 }])) :=
  ⟨rfl, rfl, rfl⟩

/-! ## Theorems: manifest classification -/

theorem toLower_eq_n (c : Char) : c.toLower = 'n' ↔ c = 'n' ∨ c = 'N' := by
  have hc : c = Char.ofNat c.toNat := (Char.ofNat_toNat c).symm
  unfold Char.toLower
  by_cases h : c.toNat ≥ 65 ∧ c.toNat ≤ 90
  · obtain ⟨h1, h2⟩ := h
    generalize c.toNat = n at *
    subst hc
    interval_cases n <;> decide
  · simp only [h, if_false]
    constructor
    · intro h1
      exact Or.inl h1
    · rintro (h1 | h1)
      · exact h1
      · subst h1
        exact absurd (by decide) h

theorem toLower_eq_a (c : Char) : c.toLower = 'a' ↔ c = 'a' ∨ c = 'A' := by
  have hc : c = Char.ofNat c.toNat := (Char.ofNat_toNat c).symm
  unfold Char.toLower
  by_cases h : c.toNat ≥ 65 ∧ c.toNat ≤ 90
  · obtain ⟨h1, h2⟩ := h
    generalize c.toNat = n at *
    subst hc
    interval_cases n <;> decide
  · simp only [h, if_false]
    constructor
    · intro h1
      exact Or.inl h1
    · rintro (h1 | h1)
      · exact h1
      · subst h1
        exact absurd (by decide) h

theorem toLower_eq_m (c : Char) : c.toLower = 'm' ↔ c = 'm' ∨ c = 'M' := by
  have hc : c = Char.ofNat c.toNat := (Char.ofNat_toNat c).symm
  unfold Char.toLower
  by_cases h : c.toNat ≥ 65 ∧ c.toNat ≤ 90
  · obtain ⟨h1, h2⟩ := h
    generalize c.toNat = n at *
    subst hc
    interval_cases n <;> decide
  · simp only [h, if_false]
    constructor
    · intro h1
      exact Or.inl h1
    · rintro (h1 | h1)
      · exact h1
      · subst h1
        exact absurd (by decide) h

theorem toLower_eq_e (c : Char) : c.toLower = 'e' ↔ c = 'e' ∨ c = 'E' := by
  have hc : c = Char.ofNat c.toNat := (Char.ofNat_toNat c).symm
  unfold Char.toLower
  by_cases h : c.toNat ≥ 65 ∧ c.toNat ≤ 90
  · obtain ⟨h1, h2⟩ := h
    generalize c.toNat = n at *
    subst hc
    interval_cases n <;> decide
  · simp only [h, if_false]
    constructor
    · intro h1
      exact Or.inl h1
    · rintro (h1 | h1)
      · exact h1
      · subst h1
        exact absurd (by decide) h

theorem foldKey_eq_name (key : GoString) :
    foldKey key = "name".toList ↔ isNameKey key = true := by
  show key.map Char.toLower = ['n', 'a', 'm', 'e'] ↔ _
  rcases key with _ | ⟨c1, _ | ⟨c2, _ | ⟨c3, _ | ⟨c4, _ | ⟨c5, rest⟩⟩⟩⟩⟩
  · simp [isNameKey]
  · simp [isNameKey]
  · simp [isNameKey]
  · simp [isNameKey]
  · simp [isNameKey, toLower_eq_n, toLower_eq_a, toLower_eq_m, toLower_eq_e]
  · simp [isNameKey]

theorem nameMembers_cons_key (key : GoString) (v : Json) (rest : List (GoString × Json))
    (h : isNameKey key = true) : nameMembers ((key, v) :: rest) = v :: nameMembers rest := by
  simp [nameMembers, List.filter_cons, h]

theorem nameMembers_cons_other (key : GoString) (v : Json) (rest : List (GoString × Json))
    (h : isNameKey key = false) : nameMembers ((key, v) :: rest) = nameMembers rest := by
  simp [nameMembers, List.filter_cons, h]

/-- What decoding the members of an object leaves in `Name`, and whether it
ends without an error. -/
theorem decodeMembers_spec (members : List (GoString × Json)) (pkg : Package)
    (err : Option Error) :
    (decodeMembers members pkg err).1.Name =
        (((nameMembers members).filterMap Json.string?).getLast?).getD pkg.Name ∧
      ((decodeMembers members pkg err).2 = none ↔
        err = none ∧ (nameMembers members).all Json.isStringOrNull = true) := by
  induction members generalizing pkg err with
  | nil => simp [decodeMembers, nameMembers]
  | cons kv rest ih =>
    cases kv with
    | mk key v =>
      by_cases hk : isNameKey key = true
      · have hf : foldKey key = "name".toList := (foldKey_eq_name key).2 hk
        rw [nameMembers_cons_key key v rest hk]
        unfold decodeMembers
        rw [if_pos hf]
        cases v with
        | str s =>
          obtain ⟨h1, h2⟩ := ih { pkg with Name := s } err
          simp only [List.filterMap_cons, Json.string?, List.getLast?_cons, Option.getD_some,
            List.all_cons, Json.isStringOrNull, Bool.true_and]
          exact ⟨h1, h2⟩
        | null =>
          obtain ⟨h1, h2⟩ := ih pkg err
          simp only [List.filterMap_cons, Json.string?, List.all_cons, Json.isStringOrNull,
            Bool.true_and]
          exact ⟨h1, h2⟩
        | bool b =>
          simp only [List.filterMap_cons, Json.string?, List.all_cons, Json.isStringOrNull,
            Bool.false_and]
          cases err with
          | none =>
            refine ⟨(ih _ _).1, ?_⟩
            rw [(ih _ _).2]
            simp
          | some e =>
            refine ⟨(ih _ _).1, ?_⟩
            rw [(ih _ _).2]
            simp
        | num n =>
          simp only [List.filterMap_cons, Json.string?, List.all_cons, Json.isStringOrNull,
            Bool.false_and]
          cases err with
          | none =>
            refine ⟨(ih _ _).1, ?_⟩
            rw [(ih _ _).2]
            simp
          | some e =>
            refine ⟨(ih _ _).1, ?_⟩
            rw [(ih _ _).2]
            simp
        | arr xs =>
          simp only [List.filterMap_cons, Json.string?, List.all_cons, Json.isStringOrNull,
            Bool.false_and]
          cases err with
          | none =>
            refine ⟨(ih _ _).1, ?_⟩
            rw [(ih _ _).2]
            simp
          | some e =>
            refine ⟨(ih _ _).1, ?_⟩
            rw [(ih _ _).2]
            simp
        | obj ms =>
          simp only [List.filterMap_cons, Json.string?, List.all_cons, Json.isStringOrNull,
            Bool.false_and]
          cases err with
          | none =>
            refine ⟨(ih _ _).1, ?_⟩
            rw [(ih _ _).2]
            simp
          | some e =>
            refine ⟨(ih _ _).1, ?_⟩
            rw [(ih _ _).2]
            simp
      · have hk1 : isNameKey key = false := by simpa using hk
        have hf : ¬foldKey key = "name".toList := fun h => hk ((foldKey_eq_name key).1 h)
        rw [nameMembers_cons_other key v rest hk1]
        unfold decodeMembers
        rw [if_neg hf]
        exact ih pkg err

theorem decodePackage_manifestName (v : Json) :
    (match decodePackage v { Name := [] } with
      | .error _ => none
      | .ok pkg1 => if pkg1.Name = [] then none else some pkg1.Name) = manifestName v := by
  cases v with
  | null => rfl
  | bool b => rfl
  | num n => rfl
  | str s => rfl
  | arr xs => rfl
  | obj members =>
    obtain ⟨h1, h2⟩ := decodeMembers_spec members { Name := [] } none
    simp only [decodePackage, manifestName]
    generalize decodeMembers members { Name := [] } none = d at h1 h2
    rcases d with ⟨pkg1, e⟩
    cases e with
    | some e =>
      have hall : ¬(nameMembers members).all Json.isStringOrNull = true := by
        intro h
        have := h2.2 ⟨rfl, h⟩
        cases this
      simp only [hall]
      rfl
    | none =>
      have hall : (nameMembers members).all Json.isStringOrNull = true := (h2.1 rfl).2
      simp only [hall, if_true]
      simp only at h1
      cases hl : ((nameMembers members).filterMap Json.string?).getLast? with
      | none =>
        rw [hl] at h1
        simp only [Option.getD_none] at h1
        simp [h1]
      | some name =>
        rw [hl] at h1
        simp only [Option.getD_some] at h1
        simp [h1]

theorem IsSupportedReference_eq (fs : FS) (parse : GoString → Option Json)
    (base s : GoString) :
    gobuild.IsSupportedReference fs parse base s =
      match ioutil_ReadFile fs (Join [base, s, "package.json".toList]) with
      | .error _ => none
      | .ok raw =>
        match parse raw with
        | none => none
        | some v => manifestName v := by
  simp only [gobuild.IsSupportedReference]
  generalize ioutil_ReadFile fs (Join [base, s, "package.json".toList]) = r
  cases r with
  | error e => rfl
  | ok raw =>
    dsimp only
    unfold json_Unmarshal
    cases hp : parse raw with
    | none => rfl
    | some v => exact decodePackage_manifestName v

theorem manifestName_eq_some (v : Json) (name : GoString) :
    manifestName v = some name ↔
      ∃ members, v = .obj members ∧
        (∀ x ∈ nameMembers members, x.isStringOrNull = true) ∧
        ((nameMembers members).filterMap Json.string?).getLast? = some name ∧ name ≠ [] := by
  constructor
  · intro h
    cases v with
    | obj members =>
      simp only [manifestName] at h
      by_cases hall : (nameMembers members).all Json.isStringOrNull = true
      · rw [if_pos hall] at h
        cases hl : ((nameMembers members).filterMap Json.string?).getLast? with
        | none => simp [hl] at h
        | some n =>
          simp only [hl] at h
          by_cases hn : n = []
          · simp [hn] at h
          · simp only [hn, if_false, Option.some.injEq] at h
            subst h
            exact ⟨members, rfl, by simpa [List.all_eq_true] using hall, hl, hn⟩
      · rw [if_neg hall] at h
        cases h
    | null => cases h
    | bool b => cases h
    | num n => cases h
    | str s => cases h
    | arr xs => cases h
  · rintro ⟨members, rfl, hall, hl, hn⟩
    have hall1 : (nameMembers members).all Json.isStringOrNull = true := by
      simpa [List.all_eq_true] using hall
    simp [manifestName, hall1, hl, hn]

theorem manifestName_obj_eq_none (members : List (GoString × Json)) :
    manifestName (.obj members) = none ↔
      (∃ x ∈ nameMembers members, x.isStringOrNull = false) ∨
      ((nameMembers members).filterMap Json.string?).getLast? = none ∨
      ((nameMembers members).filterMap Json.string?).getLast? = some [] := by
  simp only [manifestName]
  by_cases hall : (nameMembers members).all Json.isStringOrNull = true
  · have hno : ¬∃ x ∈ nameMembers members, x.isStringOrNull = false := by
      rintro ⟨x, hx, hxf⟩
      rw [List.all_eq_true] at hall
      rw [hall x hx] at hxf
      cases hxf
    rw [if_pos hall]
    cases hl : ((nameMembers members).filterMap Json.string?).getLast? with
    | none => simp
    | some n =>
      by_cases hn : n = []
      · simp [hn]
      · simp [hn, hno]
  · rw [if_neg hall]
    refine ⟨fun _ => Or.inl ?_, fun _ => rfl⟩
    by_contra hcon
    apply hall
    rw [List.all_eq_true]
    intro x hx
    by_contra hxt
    exact hcon ⟨x, hx, by simpa using hxt⟩

/-- C8, as the code has it: `IsSupportedReference(base, s)` is the name the
manifest `join(base, s, "package.json")` gives.  It returns a name exactly
when the file can be read, is valid JSON, its value is an object in which
every member named `name` (in any ASCII case) is a string or `null`, and the
last of these strings is not empty; that string is the name returned.  It
returns nil, never an error, exactly when the file cannot be read, or is not
valid JSON, or its value is not an object, or a member named `name` is
neither a string nor `null`, or no member named `name` is a string, or the
last such string is empty. -/
theorem IsSupportedReference_manifest (fs : FS) (parse : GoString → Option Json)
    (base s : GoString) :
    (gobuild.IsSupportedReference fs parse base s =
      match ioutil_ReadFile fs (Join [base, s, "package.json".toList]) with
      | .error _ => none
      | .ok raw =>
        match parse raw with
        | none => none
        | some v => manifestName v) ∧
    (∀ name, gobuild.IsSupportedReference fs parse base s = some name ↔
      ∃ raw members,
        ioutil_ReadFile fs (Join [base, s, "package.json".toList]) = .ok raw ∧
        parse raw = some (.obj members) ∧
        (∀ x ∈ nameMembers members, x.isStringOrNull = true) ∧
        ((nameMembers members).filterMap Json.string?).getLast? = some name ∧ name ≠ []) ∧
    (gobuild.IsSupportedReference fs parse base s = none ↔
      (∃ e, ioutil_ReadFile fs (Join [base, s, "package.json".toList]) = .error e) ∨
      (∃ raw, ioutil_ReadFile fs (Join [base, s, "package.json".toList]) = .ok raw ∧
        parse raw = none) ∨
      (∃ raw v, ioutil_ReadFile fs (Join [base, s, "package.json".toList]) = .ok raw ∧
        parse raw = some v ∧ ∀ members, v ≠ .obj members) ∨
      (∃ raw members,
        ioutil_ReadFile fs (Join [base, s, "package.json".toList]) = .ok raw ∧
        parse raw = some (.obj members) ∧
        ((∃ x ∈ nameMembers members, x.isStringOrNull = false) ∨
          ((nameMembers members).filterMap Json.string?).getLast? = none ∨
          ((nameMembers members).filterMap Json.string?).getLast? = some []))) := by
  refine ⟨IsSupportedReference_eq fs parse base s, ?_, ?_⟩
  · intro name
    rw [IsSupportedReference_eq]
    generalize ioutil_ReadFile fs (Join [base, s, "package.json".toList]) = r
    cases r with
    | error e =>
      dsimp only
      constructor
      · intro h
        cases h
      · rintro ⟨raw, members, h1, _⟩
        cases h1
    | ok raw =>
      dsimp only
      cases hp : parse raw with
      | none =>
        dsimp only
        constructor
        · intro h
          cases h
        · rintro ⟨raw1, members, h1, h2, _⟩
          cases h1
          rw [hp] at h2
          cases h2
      | some v =>
        dsimp only
        rw [manifestName_eq_some]
        constructor
        · rintro ⟨members, rfl, h3, h4, h5⟩
          exact ⟨raw, members, rfl, hp, h3, h4, h5⟩
        · rintro ⟨raw1, members, h1, h2, h3, h4, h5⟩
          cases h1
          rw [hp] at h2
          cases h2
          exact ⟨members, rfl, h3, h4, h5⟩
  · rw [IsSupportedReference_eq]
    generalize ioutil_ReadFile fs (Join [base, s, "package.json".toList]) = r
    cases r with
    | error e => exact ⟨fun _ => Or.inl ⟨e, rfl⟩, fun _ => rfl⟩
    | ok raw =>
      dsimp only
      cases hp : parse raw with
      | none => exact ⟨fun _ => Or.inr (Or.inl ⟨raw, rfl, hp⟩), fun _ => rfl⟩
      | some v =>
        dsimp only
        constructor
        · intro h
          by_cases hobj : ∃ members, v = .obj members
          · obtain ⟨members, rfl⟩ := hobj
            exact Or.inr (Or.inr (Or.inr ⟨raw, members, rfl, hp,
              (manifestName_obj_eq_none members).1 h⟩))
          · exact Or.inr (Or.inr (Or.inl ⟨raw, v, rfl, hp,
              fun members hv => hobj ⟨members, hv⟩⟩))
        · rintro (⟨e, h1⟩ | ⟨raw1, h1, h2⟩ | ⟨raw1, v1, h1, h2, h3⟩ | ⟨raw1, members, h1, h2, h3⟩)
          · cases h1
          · cases h1
            rw [hp] at h2
            cases h2
          · cases h1
            rw [hp] at h2
            cases h2
            cases v with
            | obj members => exact absurd rfl (h3 members)
            | null => rfl
            | bool b => rfl
            | num n => rfl
            | str s => rfl
            | arr xs => rfl
          · cases h1
            rw [hp] at h2
            cases h2
            exact (manifestName_obj_eq_none members).2 h3

/-- C8 fails as stated: the manifest `/src/num/package.json` can be read,
is valid structured data and has the non-empty name field `5`, and
`IsSupportedReference` returns nil. -/
theorem IsSupportedReference_number_counterexample :
    ioutil_ReadFile manifestFS (Join ["/src".toList, "num".toList, "package.json".toList]) =
        .ok "\x7b\"name\": 5\x7d".toList ∧
      exampleParse "\x7b\"name\": 5\x7d".toList =
        some (.obj [("name".toList, .num 5)]) ∧
      gobuild.IsSupportedReference manifestFS exampleParse "/src".toList "num".toList = none :=
  ⟨rfl, rfl, rfl⟩

/-- Manifests: `name` = `foo` gives `foo`; the key `NAME` names the field
too; a missing manifest and the value `null` give nil. -/
theorem IsSupportedReference_examples :
    gobuild.IsSupportedReference appFS exampleParse "/src".toList "app".toList =
        some "foo".toList ∧
      gobuild.IsSupportedReference manifestFS exampleParse "/src".toList "upper".toList =
        some "Foo".toList ∧
      gobuild.IsSupportedReference appFS exampleParse "/src".toList "missing-dir".toList =
        none ∧
      gobuild.IsSupportedReference manifestFS exampleParse "/src".toList "null".toList =
        none :=
  ⟨rfl, rfl, rfl, rfl⟩

/-! ## Theorems: the caching builder, one caller -/

theorem lookup_filter_ne (key : GoString) (l : List (GoString × Nat)) :
    (l.filter (fun kv => kv.1 ≠ key)).lookup key = none := by
  induction l with
  | nil => rfl
  | cons kv rest ih =>
    cases kv with
    | mk k v =>
      by_cases hk : k = key
      · have hf : List.filter (fun kv => decide (kv.1 ≠ key)) ((k, v) :: rest) =
            List.filter (fun kv => decide (kv.1 ≠ key)) rest := by
          rw [List.filter_cons]
          simp [hk]
        rw [hf]
        exact ih
      · have hf : List.filter (fun kv => decide (kv.1 ≠ key)) ((k, v) :: rest) =
            (k, v) :: List.filter (fun kv => decide (kv.1 ≠ key)) rest := by
          rw [List.filter_cons]
          simp [hk]
        have hb : (key == k) = false := by
          rw [beq_eq_false_iff_ne]
          exact fun h => hk h.symm
        rw [hf, List.lookup_cons, hb]
        exact ih

theorem Caching.getFuture_miss {σ ι : Type} (c : Caching σ ι) (base dir : GoString)
    (h : c.results.lookup (Join [base, dir]) = none) :
    c.getFuture base dir = (c.heap.length,
      { c with
        heap := c.heap ++ [newFuture (c.inner.invoke base dir)]
        results := (Join [base, dir], c.heap.length) :: c.results }) := by
  simp [Caching.getFuture, h]

theorem Caching.getFuture_found {σ ι : Type} (c : Caching σ ι) (base dir : GoString) (f : Nat)
    (h : c.results.lookup (Join [base, dir]) = some f) :
    c.getFuture base dir = (f, c) := by
  simp [Caching.getFuture, h]

/-- A `Build` for a key without a future records a new future, runs the
inner `Build` once and returns its result. -/
theorem Caching.Build_miss {σ ι : Type} (c : Caching σ ι) (w : World σ) (base dir : GoString)
    (h : c.results.lookup (Join [base, dir]) = none) :
    (c.Build w base dir).1 = (c.inner.Build base dir w.state).1 ∧
      (c.Build w base dir).2.2 = (c.inner.invoke base dir w).2 ∧
      (c.Build w base dir).2.1.Hit (Join [base, dir]) (c.inner.Build base dir w.state).1 ∧
      (c.Build w base dir).2.1.inner = c.inner := by
  have hget : (c.heap ++ [newFuture (c.inner.invoke base dir)]).get? c.heap.length =
      some (newFuture (c.inner.invoke base dir)) := by
    simp [List.get?_eq_getElem?]
  have hB : c.Build w base dir =
      ((c.inner.Build base dir w.state).1,
        { c with
          heap := (c.heap ++ [newFuture (c.inner.invoke base dir)]).set c.heap.length
            { work := c.inner.invoke base dir
              status := .done (c.inner.Build base dir w.state).1 }
          results := (Join [base, dir], c.heap.length) :: c.results },
        (c.inner.invoke base dir w).2) := by
    simp only [Caching.Build, Caching.getFuture_miss c base dir h, Caching.Get, hget]
    rfl
  rw [hB]
  refine ⟨rfl, rfl, ?_, rfl⟩
  refine ⟨c.heap.length,
    future.mk (c.inner.invoke base dir) (.done (c.inner.Build base dir w.state).1), ?_, ?_, rfl⟩
  · simp [List.lookup]
  · simp [List.get?_eq_getElem?]

/-- A `Build` for a key with a completed future returns the kept result and
leaves the world as it is. -/
theorem Caching.Build_hit {σ ι : Type} (c : Caching σ ι) (w : World σ) (base dir : GoString)
    (r : Except Error ι) (h : c.Hit (Join [base, dir]) r) :
    (c.Build w base dir).1 = r ∧ (c.Build w base dir).2.2 = w ∧
      (c.Build w base dir).2.1.Hit (Join [base, dir]) r := by
  obtain ⟨f, fut, h1, h2, h3⟩ := h
  have hget : fut.Get w = (r, fut, w) := by
    simp [future.Get, h3]
  have hB : c.Build w base dir = (r, { c with heap := c.heap.set f fut }, w) := by
    simp only [Caching.Build, Caching.getFuture_found c base dir f h1, Caching.Get, h2, hget]
  rw [hB]
  refine ⟨rfl, rfl, f, fut, h1, ?_, h3⟩
  have hlt : f < c.heap.length := by
    rw [List.get?_eq_getElem?] at h2
    exact (List.getElem?_eq_some_iff.1 h2).1
  simp [List.get?_eq_getElem?, List.getElem?_set, hlt]

theorem Caching.BuildTimes_hit {σ ι : Type} (base dir : GoString) (r : Except Error ι)
    (n : Nat) (c : Caching σ ι) (w : World σ) (h : c.Hit (Join [base, dir]) r) :
    (Caching.BuildTimes base dir n c w).1 = List.replicate n r ∧
      (Caching.BuildTimes base dir n c w).2.2 = w := by
  induction n generalizing c with
  | zero => exact ⟨rfl, rfl⟩
  | succ k ih =>
    obtain ⟨h1, h2, h3⟩ := Caching.Build_hit c w base dir r h
    have ih1 := ih (c.Build w base dir).2.1 h3
    constructor
    · show (c.Build w base dir).1 ::
        (Caching.BuildTimes base dir k (c.Build w base dir).2.1 (c.Build w base dir).2.2).1 = _
      rw [h1, h2, ih1.1, List.replicate_succ]
    · show (Caching.BuildTimes base dir k (c.Build w base dir).2.1 (c.Build w base dir).2.2).2.2 = w
      rw [h2, ih1.2]

/-- C1: for every inner builder, every `(base, dir)` and every `n ≥ 2`,
`n` calls of `Build(base, dir)` one after the other on a new cache invoke the
inner `Build` exactly once, and each of the `n` calls returns the result of
that one invocation, image or error. -/
theorem Caching_Build_once {σ ι : Type} (inner : Interface σ ι) (base dir : GoString)
    (w : World σ) (n : Nat) (hn : 2 ≤ n) :
    (Caching.BuildTimes base dir n (NewCaching inner) w).1 =
        List.replicate n (inner.Build base dir w.state).1 ∧
      (Caching.BuildTimes base dir n (NewCaching inner) w).2.2.calls =
        w.calls ++ [(base, dir)] ∧
      (Caching.BuildTimes base dir n (NewCaching inner) w).2.2.state =
        (inner.Build base dir w.state).2 := by
  obtain ⟨k, rfl⟩ : ∃ k, n = k + 1 := ⟨n - 1, by omega⟩
  obtain ⟨h1, h2, h3, _⟩ := Caching.Build_miss (NewCaching inner) w base dir rfl
  have h4 := Caching.BuildTimes_hit base dir _ k _
    ((NewCaching inner).Build w base dir).2.2 h3
  have hw : (Caching.BuildTimes base dir (k + 1) (NewCaching inner) w).2.2 =
      (inner.invoke base dir w).2 := by
    show (Caching.BuildTimes base dir k ((NewCaching inner).Build w base dir).2.1
      ((NewCaching inner).Build w base dir).2.2).2.2 = _
    rw [h4.2, h2]
    rfl
  refine ⟨?_, ?_, ?_⟩
  · show ((NewCaching inner).Build w base dir).1 :: _ = _
    rw [h1, h4.1, List.replicate_succ]
    rfl
  · rw [hw]
    rfl
  · rw [hw]
    rfl

/-- Witness of `Caching_Build_once`: three calls of `Build("/src", "app")`
on a new cache over the counting stub. -/
theorem Caching_Build_once_witness :
    2 ≤ 3 ∧
      (Caching.BuildTimes "/src".toList "app".toList 3 (NewCaching countingStub)
          { state := 0, calls := [] }).1 =
        List.replicate 3 (countingStub.Build "/src".toList "app".toList 0).1 ∧
      (Caching.BuildTimes "/src".toList "app".toList 3 (NewCaching countingStub)
          { state := 0, calls := [] }).2.2.calls = [] ++ [("/src".toList, "app".toList)] ∧
      (Caching.BuildTimes "/src".toList "app".toList 3 (NewCaching countingStub)
          { state := 0, calls := [] }).2.2.state =
        (countingStub.Build "/src".toList "app".toList 0).2 :=
  ⟨by decide,
    Caching_Build_once countingStub "/src".toList "app".toList { state := 0, calls := [] } 3
      (by decide)⟩

/-- C2: in every cache state, so in every state in which the key is present,
`Invalidate(base, dir)` followed by `Build(base, dir)` invokes the inner
`Build` once more and returns the result of that invocation.  On a new cache,
`Build`, `Invalidate`, `Build` invoke the inner `Build` twice, and the second
`Build` returns the result of the second invocation, made in the world the
first one left. -/
theorem Caching_Invalidate_rebuilds {σ ι : Type} (c : Caching σ ι) (inner : Interface σ ι)
    (w : World σ) (base dir : GoString) :
    (((c.Invalidate base dir).Build w base dir).1 = (c.inner.Build base dir w.state).1 ∧
      ((c.Invalidate base dir).Build w base dir).2.2.calls = w.calls ++ [(base, dir)] ∧
      ((c.Invalidate base dir).Build w base dir).2.2.state =
        (c.inner.Build base dir w.state).2) ∧
    (((NewCaching inner).Build w base dir).1 = (inner.Build base dir w.state).1 ∧
      (((((NewCaching inner).Build w base dir).2.1).Invalidate base dir).Build
          ((NewCaching inner).Build w base dir).2.2 base dir).1 =
        (inner.Build base dir (inner.Build base dir w.state).2).1 ∧
      (((((NewCaching inner).Build w base dir).2.1).Invalidate base dir).Build
          ((NewCaching inner).Build w base dir).2.2 base dir).2.2.calls =
        w.calls ++ [(base, dir), (base, dir)]) := by
  have hinv : ∀ c0 : Caching σ ι,
      (c0.Invalidate base dir).results.lookup (Join [base, dir]) = none :=
    fun c0 => lookup_filter_ne (Join [base, dir]) c0.results
  constructor
  · obtain ⟨h1, h2, _, _⟩ := Caching.Build_miss (c.Invalidate base dir) w base dir (hinv c)
    refine ⟨h1, ?_, ?_⟩
    · rw [h2]
      rfl
    · rw [h2]
      rfl
  · obtain ⟨h1, h2, _, h4⟩ := Caching.Build_miss (NewCaching inner) w base dir rfl
    obtain ⟨g1, g2, _, _⟩ := Caching.Build_miss
      ((((NewCaching inner).Build w base dir).2.1).Invalidate base dir)
      ((NewCaching inner).Build w base dir).2.2 base dir (hinv _)
    have hin : ((((NewCaching inner).Build w base dir).2.1).Invalidate base dir).inner = inner := by
      show (((NewCaching inner).Build w base dir).2.1).inner = inner
      rw [h4]
      rfl
    refine ⟨h1, ?_, ?_⟩
    · rw [g1, hin, h2]
      rfl
    · rw [g2, hin, h2]
      simp [Interface.invoke, NewCaching]

/-! ## Theorems: the caching builder, concurrent callers -/

theorem total_set {α : Type} (f : α → Nat) (l : List α) (i : Nat) (c x : α)
    (h : l.get? i = some c) : total f (l.set i x) + f c = total f l + f x := by
  induction l generalizing i with
  | nil => simp at h
  | cons a rest ih =>
    cases i with
    | zero =>
      simp only [List.get?_cons_zero, Option.some.injEq] at h
      subst h
      simp only [total, List.set_cons_zero, List.map_cons, List.sum_cons]
      omega
    | succ j =>
      simp only [List.get?_cons_succ] at h
      have := ih j h
      simp only [total, List.set_cons_succ, List.map_cons, List.sum_cons] at this ⊢
      omega

theorem total_eq_zero {α : Type} (f : α → Nat) (l : List α) (h : ∀ c ∈ l, f c = 0) :
    total f l = 0 := by
  induction l with
  | nil => rfl
  | cons a rest ih =>
    simp only [total, List.map_cons, List.sum_cons]
    have h1 := h a (by simp)
    have h2 := ih (fun c hc => h c (by simp [hc]))
    simp only [total] at h2
    omega

theorem total_mem_le {α : Type} (f : α → Nat) (l : List α) (c : α) (h : c ∈ l) :
    f c ≤ total f l := by
  induction l with
  | nil => simp at h
  | cons a rest ih =>
    simp only [total, List.map_cons, List.sum_cons]
    rcases List.mem_cons.1 h with rfl | h
    · omega
    · have := ih h
      simp only [total] at this
      omega

theorem total_pos_exists {α : Type} (f : α → Nat) (l : List α) (h : 0 < total f l) :
    ∃ c ∈ l, 0 < f c := by
  by_contra hc
  push_neg at hc
  have := total_eq_zero f l (fun c hcl => by have := hc c hcl; omega)
  omega

theorem Inv_init {σ ι : Type} (inner : Interface σ ι) (w : World σ) (K : GoString)
    (P : List (GoString × GoString)) : Inv inner w K P (System.init inner w P) := by
  refine ⟨rfl, by simp [System.init], ?_, Or.inl ⟨rfl, rfl, rfl, ?_⟩⟩
  · intro b d h
    simp only [System.init, List.mem_map] at h
    obtain ⟨bd, hbd, heq⟩ := h
    cases heq
    exact hbd
  · intro c hc
    simp only [System.init, List.mem_map] at hc
    obtain ⟨bd, _, rfl⟩ := hc
    exact ⟨bd.1, bd.2, rfl⟩

theorem weight_init {σ ι : Type} (inner : Interface σ ι) (w : World σ)
    (P : List (GoString × GoString)) :
    total Caller.weight (System.init inner w P).callers = 3 * P.length := by
  simp only [System.init, total, List.map_map]
  induction P with
  | nil => rfl
  | cons bd rest ih =>
    simp only [List.map_cons, List.sum_cons, List.length_cons, Function.comp, Caller.weight] at ih ⊢
    omega

theorem step_called {σ ι : Type} (s : System σ ι) (i : Nat) (b d : GoString)
    (hc : s.callers.get? i = some (.called b d)) :
    s.step i = some { s with
      cache := (s.cache.getFuture b d).2
      callers := s.callers.set i (.waiting (s.cache.getFuture b d).1) } := by
  unfold System.step
  rw [hc]

theorem step_waiting {σ ι : Type} (s : System σ ι) (i f : Nat) (fut : future σ ι)
    (hc : s.callers.get? i = some (.waiting f)) (hf : s.cache.heap.get? f = some fut) :
    s.step i =
      match fut.status with
      | .empty =>
        some { s with
          cache := { s.cache with heap := s.cache.heap.set f { fut with status := .running } }
          callers := s.callers.set i (.producing f) }
      | .running => none
      | .done r => some { s with callers := s.callers.set i (.returned r) } := by
  unfold System.step
  rw [hc]
  simp only [hf]

theorem step_producing {σ ι : Type} (s : System σ ι) (i f : Nat) (fut : future σ ι)
    (hc : s.callers.get? i = some (.producing f)) (hf : s.cache.heap.get? f = some fut) :
    s.step i = some
      { cache := { s.cache with
          heap := s.cache.heap.set f { fut with status := .done (fut.work s.world).1 } }
        world := (fut.work s.world).2
        callers := s.callers.set i (.returned (fut.work s.world).1) } := by
  unfold System.step
  rw [hc]
  simp only [hf]

theorem step_returned {σ ι : Type} (s : System σ ι) (i : Nat) (r : Except Error ι)
    (hc : s.callers.get? i = some (.returned r)) : s.step i = none := by
  unfold System.step
  rw [hc]

theorem step_none {σ ι : Type} (s : System σ ι) (i : Nat)
    (hc : s.callers.get? i = none) : s.step i = none := by
  unfold System.step
  rw [hc]

theorem Inv_step_called {σ ι : Type} (inner : Interface σ ι) (w : World σ) (K : GoString)
    (P : List (GoString × GoString)) (hK : ∀ bd ∈ P, Join [bd.1, bd.2] = K)
    (s : System σ ι) (i : Nat) (b d : GoString) (hI : Inv inner w K P s)
    (hc : s.callers.get? i = some (.called b d)) :
    Inv inner w K P { s with
      cache := (s.cache.getFuture b d).2
      callers := s.callers.set i (.waiting (s.cache.getFuture b d).1) } := by
  obtain ⟨h0, h1, h2, h3⟩ := hI
  have hmem : Caller.called b d ∈ s.callers := List.get?_mem hc
  have hbd := h2 b d hmem
  have hkey : Join [b, d] = K := hK (b, d) hbd
  have hcalled : ∀ b1 d1 f, Caller.called b1 d1 ∈ s.callers.set i (Caller.waiting f) →
      (b1, d1) ∈ P := by
    intro b1 d1 f hm
    rcases List.mem_or_eq_of_mem_set hm with hm | hm
    · exact h2 b1 d1 hm
    · cases hm
  have htot : ∀ f, total Caller.producingCount (s.callers.set i (Caller.waiting f)) =
      total Caller.producingCount s.callers := by
    intro f
    have := total_set Caller.producingCount s.callers i _ (Caller.waiting f) hc
    simpa [Caller.producingCount] using this
  have hret : ∀ f r, Caller.returned r ∈ s.callers.set i (Caller.waiting f) →
      Caller.returned r ∈ s.callers := by
    intro f r hm
    rcases List.mem_or_eq_of_mem_set hm with hm | hm
    · exact hm
    · cases hm
  rcases h3 with ⟨hr, hh, hw, hall⟩ | ⟨b0, d0, st, hb0, hr, hh, hwf, hpf, hst⟩
  · have hg : s.cache.getFuture b d = (0,
        { s.cache with
          heap := [newFuture (s.cache.inner.invoke b d)]
          results := [(K, 0)] }) := by
      simp [Caching.getFuture, hr, hh, hkey]
    rw [hg]
    refine ⟨h0, by simpa using h1, (fun b1 d1 => hcalled b1 d1 0), Or.inr ⟨b, d, .empty, hbd, rfl, ?_, ?_, ?_, ?_⟩⟩
    · simp [newFuture, h0]
    · intro f hm
      rcases List.mem_or_eq_of_mem_set hm with hm | hm
      · obtain ⟨b1, d1, h⟩ := hall _ hm
        cases h
      · cases hm
        rfl
    · intro f hm
      rcases List.mem_or_eq_of_mem_set hm with hm | hm
      · obtain ⟨b1, d1, h⟩ := hall _ hm
        cases h
      · cases hm
    · refine ⟨hw, ?_, ?_⟩
      · show total Caller.producingCount (s.callers.set i (Caller.waiting 0)) = 0
        rw [htot]
        apply total_eq_zero
        intro c hcm
        obtain ⟨b1, d1, rfl⟩ := hall c hcm
        rfl
      · intro r hm
        obtain ⟨b1, d1, h⟩ := hall _ (hret 0 r hm)
        cases h
  · have hg : s.cache.getFuture b d = (0, s.cache) := by
      simp [Caching.getFuture, hr, hkey, List.lookup]
    rw [hg]
    refine ⟨h0, by simpa using h1, (fun b1 d1 => hcalled b1 d1 0), Or.inr ⟨b0, d0, st, hb0, hr, hh, ?_, ?_, ?_⟩⟩
    · intro f hm
      rcases List.mem_or_eq_of_mem_set hm with hm | hm
      · exact hwf f hm
      · cases hm
        rfl
    · intro f hm
      rcases List.mem_or_eq_of_mem_set hm with hm | hm
      · exact hpf f hm
      · cases hm
    · cases st with
      | empty =>
        obtain ⟨a1, a2, a3⟩ := hst
        exact ⟨a1, by show total _ (s.callers.set i (Caller.waiting 0)) = 0; rw [htot]; exact a2,
          fun r hm => a3 r (hret 0 r hm)⟩
      | running =>
        obtain ⟨a1, a2, a3⟩ := hst
        exact ⟨a1, by show total _ (s.callers.set i (Caller.waiting 0)) = 1; rw [htot]; exact a2,
          fun r hm => a3 r (hret 0 r hm)⟩
      | done r =>
        obtain ⟨a1, a2, a3, a4⟩ := hst
        exact ⟨a1, a2, by show total _ (s.callers.set i (Caller.waiting 0)) = 0; rw [htot]; exact a3,
          fun r1 hm => a4 r1 (hret 0 r1 hm)⟩

theorem Inv_step {σ ι : Type} (inner : Interface σ ι) (w : World σ) (K : GoString)
    (P : List (GoString × GoString)) (hK : ∀ bd ∈ P, Join [bd.1, bd.2] = K)
    (s s1 : System σ ι) (i : Nat) (hI : Inv inner w K P s) (hs : s.step i = some s1) :
    Inv inner w K P s1 ∧
      total Caller.weight s1.callers + 1 ≤ total Caller.weight s.callers := by
  cases hc : s.callers.get? i with
  | none =>
    rw [step_none s i hc] at hs
    cases hs
  | some c =>
    have hmem : c ∈ s.callers := List.get?_mem hc
    cases c with
    | returned r =>
      rw [step_returned s i r hc] at hs
      cases hs
    | called b d =>
      rw [step_called s i b d hc] at hs
      cases hs
      refine ⟨Inv_step_called inner w K P hK s i b d hI hc, ?_⟩
      have := total_set Caller.weight s.callers i _
        (Caller.waiting (s.cache.getFuture b d).1) hc
      simp only [Caller.weight] at this
      show total Caller.weight (s.callers.set i _) + 1 ≤ _
      omega
    | waiting f =>
      obtain ⟨h0, h1, h2, h3⟩ := hI
      rcases h3 with ⟨hr, hh, hw, hall⟩ | ⟨b0, d0, st, hb0, hr, hh, hwf, hpf, hst⟩
      · obtain ⟨b1, d1, h⟩ := hall _ hmem
        cases h
      · have hf0 : f = 0 := hwf f hmem
        subst hf0
        have hget : s.cache.heap.get? 0 = some { work := inner.invoke b0 d0, status := st } := by
          rw [hh]
          rfl
        rw [step_waiting s i 0 _ hc hget] at hs
        cases st with
        | running => cases hs
        | empty =>
          simp only [Option.some.injEq] at hs
          subst hs
          obtain ⟨a1, a2, a3⟩ := hst
          have hw1 := total_set Caller.weight s.callers i _ (Caller.producing 0) hc
          have hp1 := total_set Caller.producingCount s.callers i _ (Caller.producing 0) hc
          simp only [Caller.weight, Caller.producingCount] at hw1 hp1
          refine ⟨⟨h0, by simpa using h1, ?_, Or.inr ⟨b0, d0, .running, hb0, hr, ?_, ?_, ?_, ?_⟩⟩, ?_⟩
          · intro b1 d1 hm
            rcases List.mem_or_eq_of_mem_set hm with hm | hm
            · exact h2 b1 d1 hm
            · cases hm
          · simp [hh]
          · intro f hm
            rcases List.mem_or_eq_of_mem_set hm with hm | hm
            · exact hwf f hm
            · cases hm
          · intro f hm
            rcases List.mem_or_eq_of_mem_set hm with hm | hm
            · exact hpf f hm
            · cases hm
              rfl
          · refine ⟨a1, ?_, ?_⟩
            · show total Caller.producingCount (s.callers.set i (Caller.producing 0)) = 1
              omega
            · intro r hm
              rcases List.mem_or_eq_of_mem_set hm with hm | hm
              · exact a3 r hm
              · cases hm
          · show total Caller.weight (s.callers.set i (Caller.producing 0)) + 1 ≤ _
            omega
        | done r =>
          simp only [Option.some.injEq] at hs
          subst hs
          obtain ⟨a1, a2, a3, a4⟩ := hst
          have hw1 := total_set Caller.weight s.callers i _ (Caller.returned r) hc
          have hp1 := total_set Caller.producingCount s.callers i _ (Caller.returned r) hc
          simp only [Caller.weight, Caller.producingCount] at hw1 hp1
          refine ⟨⟨h0, by simpa using h1, ?_, Or.inr ⟨b0, d0, .done r, hb0, hr, hh, ?_, ?_, ?_⟩⟩, ?_⟩
          · intro b1 d1 hm
            rcases List.mem_or_eq_of_mem_set hm with hm | hm
            · exact h2 b1 d1 hm
            · cases hm
          · intro f hm
            rcases List.mem_or_eq_of_mem_set hm with hm | hm
            · exact hwf f hm
            · cases hm
          · intro f hm
            rcases List.mem_or_eq_of_mem_set hm with hm | hm
            · exact hpf f hm
            · cases hm
          · refine ⟨a1, a2, ?_, ?_⟩
            · show total Caller.producingCount (s.callers.set i (Caller.returned r)) = 0
              omega
            · intro r1 hm
              rcases List.mem_or_eq_of_mem_set hm with hm | hm
              · exact a4 r1 hm
              · cases hm
                rfl
          · show total Caller.weight (s.callers.set i (Caller.returned r)) + 1 ≤ _
            omega
    | producing f =>
      obtain ⟨h0, h1, h2, h3⟩ := hI
      rcases h3 with ⟨hr, hh, hw, hall⟩ | ⟨b0, d0, st, hb0, hr, hh, hwf, hpf, hst⟩
      · obtain ⟨b1, d1, h⟩ := hall _ hmem
        cases h
      · have hf0 : f = 0 := hpf f hmem
        subst hf0
        have hget : s.cache.heap.get? 0 = some { work := inner.invoke b0 d0, status := st } := by
          rw [hh]
          rfl
        rw [step_producing s i 0 _ hc hget] at hs
        simp only [Option.some.injEq] at hs
        subst hs
        have hge : 1 ≤ total Caller.producingCount s.callers :=
          total_mem_le Caller.producingCount s.callers _ hmem
        have hw1 := total_set Caller.weight s.callers i _
          (Caller.returned ((inner.invoke b0 d0 s.world).1)) hc
        have hp1 := total_set Caller.producingCount s.callers i _
          (Caller.returned ((inner.invoke b0 d0 s.world).1)) hc
        simp only [Caller.weight, Caller.producingCount] at hw1 hp1
        cases st with
        | empty =>
          obtain ⟨a1, a2, a3⟩ := hst
          omega
        | done r =>
          obtain ⟨a1, a2, a3, a4⟩ := hst
          omega
        | running =>
          obtain ⟨a1, a2, a3⟩ := hst
          refine ⟨⟨h0, by simpa using h1, ?_, Or.inr ⟨b0, d0,
            .done (inner.invoke b0 d0 s.world).1, hb0, hr, ?_, ?_, ?_, ?_⟩⟩, ?_⟩
          · intro b1 d1 hm
            rcases List.mem_or_eq_of_mem_set hm with hm | hm
            · exact h2 b1 d1 hm
            · cases hm
          · simp [hh]
          · intro f hm
            rcases List.mem_or_eq_of_mem_set hm with hm | hm
            · exact hwf f hm
            · cases hm
          · intro f hm
            rcases List.mem_or_eq_of_mem_set hm with hm | hm
            · exact hpf f hm
            · cases hm
          · refine ⟨?_, ?_, ?_, ?_⟩
            · rw [a1]
              rfl
            · show (inner.invoke b0 d0 s.world).2 = _
              rw [a1]
            · show total Caller.producingCount (s.callers.set i _) = 0
              omega
            · intro r1 hm
              rcases List.mem_or_eq_of_mem_set hm with hm | hm
              · exact absurd hm (a3 r1)
              · cases hm
                rfl
          · show total Caller.weight (s.callers.set i _) + 1 ≤ _
            omega

theorem Inv_run {σ ι : Type} (inner : Interface σ ι) (w : World σ) (K : GoString)
    (P : List (GoString × GoString)) (hK : ∀ bd ∈ P, Join [bd.1, bd.2] = K)
    (sched : List Nat) (s s1 : System σ ι) (hI : Inv inner w K P s)
    (hrun : s.run sched = some s1) :
    Inv inner w K P s1 ∧
      sched.length + total Caller.weight s1.callers ≤ total Caller.weight s.callers := by
  induction sched generalizing s with
  | nil =>
    simp only [System.run, Option.some.injEq] at hrun
    subst hrun
    exact ⟨hI, by simp⟩
  | cons i rest ih =>
    unfold System.run at hrun
    cases hs : s.step i with
    | none => simp [hs] at hrun
    | some s2 =>
      simp only [hs] at hrun
      obtain ⟨hI2, hw2⟩ := Inv_step inner w K P hK s s2 i hI hs
      obtain ⟨hI1, hw1⟩ := ih s2 hI2 hrun
      refine ⟨hI1, ?_⟩
      simp only [List.length_cons]
      omega

theorem Inv_progress {σ ι : Type} (inner : Interface σ ι) (w : World σ) (K : GoString)
    (P : List (GoString × GoString)) (s : System σ ι) (hI : Inv inner w K P s)
    (h : ∃ c ∈ s.callers, c.isReturned = false) : ∃ i, (s.step i).isSome = true := by
  obtain ⟨h0, h1, h2, h3⟩ := hI
  by_cases hcalled : ∃ b d, Caller.called b d ∈ s.callers
  · obtain ⟨b, d, hm⟩ := hcalled
    obtain ⟨i, hi⟩ := List.mem_iff_get?.1 hm
    exact ⟨i, by rw [step_called s i b d hi]; rfl⟩
  · rcases h3 with ⟨hr, hh, hw, hall⟩ | ⟨b0, d0, st, hb0, hr, hh, hwf, hpf, hst⟩
    · obtain ⟨c, hc, _⟩ := h
      obtain ⟨b, d, rfl⟩ := hall c hc
      exact absurd ⟨b, d, hc⟩ hcalled
    · have hget : s.cache.heap.get? 0 = some { work := inner.invoke b0 d0, status := st } := by
        rw [hh]
        rfl
      by_cases hprod : ∃ f, Caller.producing f ∈ s.callers
      · obtain ⟨f, hm⟩ := hprod
        have hf0 : f = 0 := hpf f hm
        subst hf0
        obtain ⟨i, hi⟩ := List.mem_iff_get?.1 hm
        exact ⟨i, by rw [step_producing s i 0 _ hi hget]; rfl⟩
      · obtain ⟨c, hc, hnr⟩ := h
        cases c with
        | called b d => exact absurd ⟨b, d, hc⟩ hcalled
        | producing f => exact absurd ⟨f, hc⟩ hprod
        | returned r => simp [Caller.isReturned] at hnr
        | waiting f =>
          have hf0 : f = 0 := hwf f hc
          subst hf0
          obtain ⟨i, hi⟩ := List.mem_iff_get?.1 hc
          refine ⟨i, ?_⟩
          rw [step_waiting s i 0 _ hi hget]
          cases st with
          | empty => rfl
          | done r => rfl
          | running =>
            exfalso
            obtain ⟨_, a2, _⟩ := hst
            obtain ⟨c1, hc1, hpos⟩ := total_pos_exists Caller.producingCount s.callers
              (by omega)
            cases c1 with
            | producing f1 => exact hprod ⟨f1, hc1⟩
            | called b d => simp [Caller.producingCount] at hpos
            | waiting f1 => simp [Caller.producingCount] at hpos
            | returned r => simp [Caller.producingCount] at hpos

theorem Inv_calls {σ ι : Type} (inner : Interface σ ι) (w : World σ) (K : GoString)
    (P : List (GoString × GoString)) (s : System σ ι) (hI : Inv inner w K P s) :
    s.world.calls = w.calls ∨ ∃ bd ∈ P, s.world.calls = w.calls ++ [bd] := by
  obtain ⟨h0, h1, h2, h3⟩ := hI
  rcases h3 with ⟨hr, hh, hw, hall⟩ | ⟨b0, d0, st, hb0, hr, hh, hwf, hpf, hst⟩
  · exact Or.inl (by rw [hw])
  · cases st with
    | empty => exact Or.inl (by rw [hst.1])
    | running => exact Or.inl (by rw [hst.1])
    | done r => exact Or.inr ⟨(b0, d0), hb0, by rw [hst.2.1]; rfl⟩

theorem Inv_all_returned {σ ι : Type} (inner : Interface σ ι) (w : World σ) (K : GoString)
    (P : List (GoString × GoString)) (hP : P ≠ []) (s : System σ ι) (hI : Inv inner w K P s)
    (hall : ∀ c ∈ s.callers, c.isReturned = true) :
    ∃ bd ∈ P, s.world.calls = w.calls ++ [bd] ∧
      s.world.state = (inner.Build bd.1 bd.2 w.state).2 ∧
      s.callers = List.replicate P.length (.returned (inner.Build bd.1 bd.2 w.state).1) := by
  obtain ⟨h0, h1, h2, h3⟩ := hI
  have hne : s.callers ≠ [] := by
    intro hnil
    rw [hnil] at h1
    exact hP (List.length_eq_zero.1 h1.symm)
  obtain ⟨c0, rest, hc0⟩ := List.exists_cons_of_ne_nil hne
  have hc0m : c0 ∈ s.callers := by rw [hc0]; simp
  have hc0r := hall c0 hc0m
  rcases h3 with ⟨hr, hh, hw, hcalled⟩ | ⟨b0, d0, st, hb0, hr, hh, hwf, hpf, hst⟩
  · obtain ⟨b, d, rfl⟩ := hcalled c0 hc0m
    simp [Caller.isReturned] at hc0r
  · cases c0 with
    | called b d => simp [Caller.isReturned] at hc0r
    | waiting f => simp [Caller.isReturned] at hc0r
    | producing f => simp [Caller.isReturned] at hc0r
    | returned r0 =>
      cases st with
      | empty => exact absurd hc0m (hst.2.2 r0)
      | running => exact absurd hc0m (hst.2.2 r0)
      | done r =>
        obtain ⟨a1, a2, a3, a4⟩ := hst
        refine ⟨(b0, d0), hb0, by rw [a2]; rfl, by rw [a2]; rfl, ?_⟩
        rw [← h1]
        apply List.eq_replicate_iff.2
        refine ⟨rfl, ?_⟩
        intro c hc
        have hcr := hall c hc
        cases c with
        | called b d => simp [Caller.isReturned] at hcr
        | waiting f => simp [Caller.isReturned] at hcr
        | producing f => simp [Caller.isReturned] at hcr
        | returned r1 =>
          rw [a4 r1 hc, a1]

/-- C3: for every `N ≥ 1` callers of `Build` whose `(base, dir)` have the
same key, and every interleaving of their steps from a new cache: the inner
`Build` has run at most once at any point; no interleaving is longer than
`3 N` steps; as long as a caller has not returned some caller can step; and
when all have returned, the inner `Build` has run exactly once, for the
`(base, dir)` of one of the callers, and all `N` callers have returned the
result of that one run. -/
theorem Caching_Build_concurrent {σ ι : Type} (inner : Interface σ ι) (w : World σ)
    (K : GoString) (P : List (GoString × GoString)) (hP : P ≠ [])
    (hK : ∀ bd ∈ P, Join [bd.1, bd.2] = K) (sched : List Nat) (s : System σ ι)
    (hrun : (System.init inner w P).run sched = some s) :
    (s.world.calls = w.calls ∨ ∃ bd ∈ P, s.world.calls = w.calls ++ [bd]) ∧
      sched.length ≤ 3 * P.length ∧
      ((∃ c ∈ s.callers, c.isReturned = false) → ∃ i, (s.step i).isSome = true) ∧
      ((∀ c ∈ s.callers, c.isReturned = true) →
        ∃ bd ∈ P, s.world.calls = w.calls ++ [bd] ∧
          s.world.state = (inner.Build bd.1 bd.2 w.state).2 ∧
          s.callers =
            List.replicate P.length (.returned (inner.Build bd.1 bd.2 w.state).1)) := by
  obtain ⟨hI, hlen⟩ := Inv_run inner w K P hK sched _ s (Inv_init inner w K P) hrun
  rw [weight_init] at hlen
  exact ⟨Inv_calls inner w K P s hI, by omega, Inv_progress inner w K P s hI,
    Inv_all_returned inner w K P hP s hI⟩

/-- Witness of `Caching_Build_concurrent`: two callers, `Build("/src",
"app")` and `Build("/src/", "app")`, with the key `/src/app`; the second
takes the lock after the first, runs the producer and returns, then the
first returns. -/
theorem Caching_Build_concurrent_witness :
    [("/src".toList, "app".toList), ("/src/".toList, "app".toList)] ≠ [] ∧
      (∀ bd ∈ [("/src".toList, "app".toList), ("/src/".toList, "app".toList)],
        Join [bd.1, bd.2] = "/src/app".toList) ∧
      ∃ s : System Nat Nat,
        (System.init countingStub { state := 0, calls := [] }
          [("/src".toList, "app".toList), ("/src/".toList, "app".toList)]).run
            [0, 1, 1, 1, 0] = some s ∧
        (s.world.calls = [] ∨
          ∃ bd ∈ [("/src".toList, "app".toList), ("/src/".toList, "app".toList)],
            s.world.calls = [] ++ [bd]) ∧
        [0, 1, 1, 1, 0].length ≤ 3 * 2 ∧
        ((∃ c ∈ s.callers, c.isReturned = false) → ∃ i, (s.step i).isSome = true) ∧
        ((∀ c ∈ s.callers, c.isReturned = true) →
          ∃ bd ∈ [("/src".toList, "app".toList), ("/src/".toList, "app".toList)],
            s.world.calls = [] ++ [bd] ∧
            s.world.state = (countingStub.Build bd.1 bd.2 0).2 ∧
            s.callers = List.replicate 2 (.returned (countingStub.Build bd.1 bd.2 0).1)) :=
  ⟨by decide, by decide, _, rfl,
    Caching_Build_concurrent countingStub { state := 0, calls := [] } "/src/app".toList
      [("/src".toList, "app".toList), ("/src/".toList, "app".toList)] (by decide) (by decide)
      [0, 1, 1, 1, 0] _ rfl⟩

end Kone
